import Mathlib

/-!
Verification development for the vault JPEG steganography backend.

Shallow embedding of `src/backend/reader.py` and `src/backend/jpeg.py`:
bytes are modelled as `ℕ` (always < 256 where the Python value is a byte),
quantised DCT coefficients as `ℤ`, numpy fixed-width casts as explicit
`% 2^w` arithmetic, and Python exceptions as `Except`.
-/

namespace Vault

/-- Python exceptions raised by the backend, distinguished where a claim
needs to tell them apart. -/
inductive VErr where
  /-- `RuntimeError('<file> cannot be injected.')` in `JPG.injectFile`. -/
  | capacity
  /-- `RuntimeError('Index of coefficient read is out of range.')` in
  `JPG.findCoeff` / `JPG.findCoeffExtract`. -/
  | outOfRange
  /-- Python `IndexError` from indexing a list out of bounds. -/
  | indexErr
  /-- `RuntimeError('Error - Could not remove the file name.')` in
  `removeNameFromFileData`. -/
  | noSeparator
  /-- `Exception('Error: Unsupported marker ... found in file.')` in
  `Header.readHeader`. -/
  | unsupportedMarker
  deriving DecidableEq, Repr

/-! ## BitReader (`src/backend/reader.py`)

The byte cursor `currByte_` is a numpy `uint8` in the source, so both its
initial value and every increment wrap modulo 256.  The accumulator
`result` in `readNextBit` is also a numpy `uint8` and wraps modulo 256
on every shift. -/

/-- State of `reader.BitReader`: the byte buffer, the `uint8` byte cursor,
the bit index in `[0,7]`, and the sticky exhausted flag `read_`. -/
structure BitReader where
  data_ : List ℕ
  currByte_ : ℕ
  currBit_ : ℕ
  read_ : Bool
  deriving DecidableEq, Repr

/-- `BitReader(data)` with the default `startByte = np.uint8(0)`. -/
def BitReader.init (data : List ℕ) : BitReader :=
  ⟨data, 0, 0, false⟩

/-- One iteration of the `for i in range(n)` loop body of
`BitReader.readNextBit`: returns the updated accumulator and reader, or
`none` when the loop breaks because `read_` is set, or an `IndexError`
when `data_[currByte_]` is out of bounds. -/
def BitReader.readStep (r : BitReader) (result : ℕ) :
    Except VErr (Option (ℕ × BitReader)) :=
  if r.read_ then .ok none
  else
    match r.data_.get? r.currByte_ with
    | none => .error .indexErr
    | some b =>
      let bit := (b >>> (7 - r.currBit_)) &&& 1
      let result' := ((result <<< 1) ||| bit) % 256
      let currBit' := (r.currBit_ + 1) % 8
      let currByte' := if currBit' = 0 then (r.currByte_ + 1) % 256 else r.currByte_
      .ok (some (result', ⟨r.data_, currByte', currBit',
        decide (r.data_.length ≤ currByte')⟩))

/-- Loop of `BitReader.readNextBit(n)`; the accumulator is threaded through
`readStep` and returned unchanged when the loop breaks early. -/
def BitReader.readLoop : ℕ → ℕ → BitReader → Except VErr (ℕ × BitReader)
  | 0, result, r => .ok (result, r)
  | Nat.succ k, result, r =>
    match r.readStep result with
    | .error e => .error e
    | .ok none => .ok (result, r)
    | .ok (some (result', r')) => BitReader.readLoop k result' r'

/-- `BitReader.readNextBit(n)`: reads `n` bits MSB-first, packing them into
a numpy `uint8` accumulator (mod 256). -/
def BitReader.readNextBit (r : BitReader) (n : ℕ) : Except VErr (ℕ × BitReader) :=
  BitReader.readLoop n 0 r

/-! ## Coefficient data model (`src/backend/jpeg.py`) -/

/-- `Channel`: one 8×8 block, a DC coefficient and 63 AC coefficients. -/
structure Channel where
  dcCoeff : ℤ
  acCoeff : List ℤ
  deriving DecidableEq, Repr

/-- `Channel()` constructor: `dc = 0`, `ac = [0] * 63`. -/
def Channel.init : Channel :=
  ⟨0, List.replicate 63 0⟩

instance : Inhabited Channel := ⟨Channel.init⟩

/-- `MinimumCodedUnit`: 4 luminance channels and 2 chrominance channels. -/
structure MinimumCodedUnit where
  luminance : List Channel
  chrominance : List Channel
  deriving DecidableEq, Repr

/-- `MinimumCodedUnit()` constructor. -/
def MinimumCodedUnit.init : MinimumCodedUnit :=
  ⟨List.replicate 4 Channel.init, List.replicate 2 Channel.init⟩

instance : Inhabited MinimumCodedUnit := ⟨MinimumCodedUnit.init⟩

/-- The mutable walker state stored on the `JPG` object
(`currMCU`, `ChannelNumber`, `ChannelType`, `Coefficient`).
`ChannelType = true` means luminance. -/
structure WalkState where
  currMCU : ℕ
  ChannelNumber : ℕ
  ChannelType : Bool
  Coefficient : ℕ
  deriving DecidableEq, Repr

/-- Walker state of a freshly constructed `JPG` object. -/
def WalkState.init : WalkState := ⟨0, 0, true, 0⟩

/-- The locator tuple `(idx, val, ch, channel, mcu)` returned by
`JPG.findCoeff`. -/
structure CoeffTuple where
  idx : ℕ
  val : ℤ
  ch : Bool
  channel : ℕ
  mcu : ℕ
  deriving DecidableEq, Repr

/-- Reads the AC coefficient the walker state points at:
`MCUVector[currMCU].luminance[ChannelNumber].acCoeff[Coefficient]` (or
`chrominance` when `ChannelType` is false). -/
def readCoeff (v : List MinimumCodedUnit) (s : WalkState) : ℤ :=
  let mcu := v.getD s.currMCU default
  if s.ChannelType then
    (mcu.luminance.getD s.ChannelNumber default).acCoeff.getD s.Coefficient 0
  else
    (mcu.chrominance.getD s.ChannelNumber default).acCoeff.getD s.Coefficient 0

/-- The state update shared by `JPG.findCoeff` and `JPG.findCoeffExtract`;
`hv` is `components[0].horizontalSamplingFactor * components[0].verticalSamplingFactor`. -/
def stepState (hv : ℕ) (s : WalkState) : WalkState :=
  let coefficient := (s.Coefficient + 1) % 63
  let chNum :=
    if coefficient = 0 then
      if s.ChannelType then (s.ChannelNumber + 1) % hv else (s.ChannelNumber + 1) % 2
    else s.ChannelNumber
  let chType :=
    if coefficient = 0 ∧ chNum = 0 then (if s.ChannelType then false else true)
    else s.ChannelType
  let mcu := if coefficient = 0 ∧ chNum = 0 ∧ chType then s.currMCU + 1 else s.currMCU
  ⟨mcu, chNum, chType, coefficient⟩

/-- `JPG.findCoeff`: raises when `currMCU` runs past the MCU vector,
otherwise returns the locator tuple of the current position and advances
the walker. -/
def findCoeff (hv : ℕ) (v : List MinimumCodedUnit) (s : WalkState) :
    Except VErr (CoeffTuple × WalkState) :=
  if v.length ≤ s.currMCU then .error .outOfRange
  else .ok (⟨s.Coefficient, readCoeff v s, s.ChannelType, s.ChannelNumber, s.currMCU⟩,
    stepState hv s)

/-- `JPG.findAvailableCoeff`: repeats `findCoeff` until the value is
neither 0 nor 1.  The Python loop is unbounded; it terminates because
`findCoeff` raises once the MCU vector is exhausted, so a fuel of
`v.length * (hv + 2) * 63 + 1` makes the model exhaustive. -/
def findAvailableCoeff (hv : ℕ) (v : List MinimumCodedUnit) :
    ℕ → WalkState → Except VErr (CoeffTuple × WalkState)
  | 0, _ => .error .outOfRange
  | Nat.succ fuel, s =>
    match findCoeff hv v s with
    | .error e => .error e
    | .ok (tup, s') =>
      if tup.val = 0 ∨ tup.val = 1 then findAvailableCoeff hv v fuel s'
      else .ok (tup, s')

/-- `JPG.findCoeffExtract`: identical traversal, returns only the value. -/
def findCoeffExtract (hv : ℕ) (v : List MinimumCodedUnit) (s : WalkState) :
    Except VErr (ℤ × WalkState) :=
  if v.length ≤ s.currMCU then .error .outOfRange
  else .ok (readCoeff v s, stepState hv s)

/-- `JPG.findAvailableCoeffExtract`, fuelled like `findAvailableCoeff`. -/
def findAvailableCoeffExtract (hv : ℕ) (v : List MinimumCodedUnit) :
    ℕ → WalkState → Except VErr (ℤ × WalkState)
  | 0, _ => .error .outOfRange
  | Nat.succ fuel, s =>
    match findCoeffExtract hv v s with
    | .error e => .error e
    | .ok (val, s') =>
      if val = 0 ∨ val = 1 then findAvailableCoeffExtract hv v fuel s'
      else .ok (val, s')

/-! ## JSteg embedding (`JPG.injectFile`) -/

/-- The fuel that makes the fuelled walker loops exhaustive: one unit per
AC position of the MCU vector, plus one.  The walker visits
`(hv + 2) * 63` positions per MCU. -/
def walkFuel (hv : ℕ) (v : List MinimumCodedUnit) : ℕ :=
  v.length * ((hv + 2) * 63) + 1

/-- The numpy conversion pipeline in `JPG.injectFile`: the coefficient is
cast to `np.uint8` (wrap mod 256), its least significant bit is set
(`| 0x01`) or cleared (`& ~0x01`, i.e. masked with 0xFE on a byte), and
the result is reinterpreted as `np.int8`. -/
def injectNewVal (c : ℤ) (bit : ℕ) : ℤ :=
  let u := (c % 256).toNat
  let u' := if bit ≠ 0 then u ||| 1 else u &&& 254
  if u' < 128 then (u' : ℤ) else (u' : ℤ) - 256

/-- `channel.acCoeff[i] = val`. -/
def setChannelAC (ch : Channel) (i : ℕ) (val : ℤ) : Channel :=
  { ch with acCoeff := ch.acCoeff.set i val }

/-- The write-back at the end of the `injectFile` loop body, indexing the
MCU vector with the locator tuple. -/
def writeCoeff (v : List MinimumCodedUnit) (tup : CoeffTuple) (val : ℤ) :
    List MinimumCodedUnit :=
  let m := v.getD tup.mcu default
  let m' :=
    if tup.ch then
      let ch' := setChannelAC (m.luminance.getD tup.channel default) tup.idx val
      { m with luminance := m.luminance.set tup.channel ch' }
    else
      let ch' := setChannelAC (m.chrominance.getD tup.channel default) tup.idx val
      { m with chrominance := m.chrominance.set tup.channel ch' }
  v.set tup.mcu m'

/-- The `for i in range(len(file_bytes) * 8)` loop of `JPG.injectFile`.
On a raised exception the error carries the MCU vector as it was at that
point (the Python object keeps its partially mutated `MCUVector`). -/
def injectLoop (hv fuel : ℕ) :
    List MinimumCodedUnit → WalkState → BitReader → ℕ →
    Except (VErr × List MinimumCodedUnit) (List MinimumCodedUnit)
  | v, _, _, 0 => .ok v
  | v, s, r, Nat.succ n =>
    match findAvailableCoeff hv v fuel s with
    | .error e => .error (e, v)
    | .ok (tup, s') =>
      match r.readNextBit 1 with
      | .error e => .error (e, v)
      | .ok (bit, r') =>
        injectLoop hv fuel (writeCoeff v tup (injectNewVal tup.val bit)) s' r' n

/-- `JPG.injectFile` after the secret file has been framed by
`prepFileToInject`: the capacity check against the `Bits` counter, then
the embedding loop driven by a fresh `BitReader` over the frame and the
fresh walker state of the decoded `JPG` object. -/
def injectFile (hv : ℕ) (v : List MinimumCodedUnit) (capacityBits : ℕ)
    (file_bytes : List ℕ) :
    Except (VErr × List MinimumCodedUnit) (List MinimumCodedUnit) :=
  if capacityBits < file_bytes.length * 8 then .error (.capacity, v)
  else injectLoop hv (walkFuel hv v) v WalkState.init (BitReader.init file_bytes)
    (file_bytes.length * 8)

/-! ## JSteg extraction (`JPG.extractFromJPG`, `removeNameFromFileData`) -/

/-- The LSB as read during extraction: the coefficient is cast to
`np.uint32` (wrap mod 2^32) and masked with `0x01`. -/
def lsbOf (c : ℤ) : ℕ :=
  (c % 4294967296).toNat &&& 1

/-- The first loop of `extractFromJPG`: 32 iterations accumulating
`size_of_secret_file` by shifting left and OR-ing in each LSB. -/
def extractSizeLoop (hv : ℕ) (v : List MinimumCodedUnit) (fuel : ℕ) :
    ℕ → ℕ → WalkState → Except VErr (ℕ × WalkState)
  | 0, size, s => .ok (size, s)
  | Nat.succ k, size, s =>
    match findAvailableCoeffExtract hv v fuel s with
    | .error e => .error e
    | .ok (c, s') => extractSizeLoop hv v fuel k ((size <<< 1) ||| lsbOf c) s'

/-- The second loop of `extractFromJPG`
(`for i in range(1, size*8 + 1)`): `i` is the 1-based loop variable,
`byte` the `np.uint32` accumulator (wrap mod 2^32), and a byte is
appended to the output whenever `i % 8 == 0`. -/
def extractDataLoop (hv : ℕ) (v : List MinimumCodedUnit) (fuel : ℕ) :
    ℕ → ℕ → ℕ → List ℕ → WalkState → Except VErr (List ℕ × WalkState)
  | 0, _, _, acc, s => .ok (acc, s)
  | Nat.succ k, i, byte, acc, s =>
    match findAvailableCoeffExtract hv v fuel s with
    | .error e => .error e
    | .ok (c, s') =>
      let byte' := ((byte <<< 1) ||| lsbOf c) % 4294967296
      if i % 8 = 0 then extractDataLoop hv v fuel k (i + 1) 0 (acc ++ [byte']) s'
      else extractDataLoop hv v fuel k (i + 1) byte' acc s'

/-- `JPG.extractFromJPG` on a freshly decoded stego image: read 32 bits of
size, then `size * 8` bits of data packed MSB-first into bytes. -/
def extractFromJPG (hv : ℕ) (v : List MinimumCodedUnit) : Except VErr (List ℕ) :=
  match extractSizeLoop hv v (walkFuel hv v) 32 0 WalkState.init with
  | .error e => .error e
  | .ok (size, s) =>
    match extractDataLoop hv v (walkFuel hv v) (size * 8) 1 0 [] s with
    | .error e => .error e
    | .ok (data, _) => .ok data

/-- The backwards scan of `removeNameFromFileData`: the index of the last
`'/'` (0x2F) byte, or 0 if there is none (`idx` keeps its initial value). -/
def lastSlashIdx (filedata : List ℕ) : ℕ :=
  match filedata.reverse.findIdx? (· = 47) with
  | some j => filedata.length - 1 - j
  | none => 0

/-- `removeNameFromFileData`: splits the extracted buffer at the last
`'/'`; raises when the scan leaves `idx = 0`.  Returns the truncated
file data together with the file-name bytes after the separator. -/
def removeNameFromFileData (filedata : List ℕ) :
    Except VErr (List ℕ × List ℕ) :=
  let idx := lastSlashIdx filedata
  if idx = 0 then .error .noSeparator
  else .ok (filedata.take idx, filedata.drop (idx + 1))

/-- `prepFileToInject`: append `'/'` (0x2F) and the basename bytes, then
insert the four bytes `(datasize >> (8*i)) & 0xFF` (i = 0..3) at position
0, one after the other. -/
def prepFileToInject (filedata : List ℕ) (filename : List ℕ) : List ℕ :=
  let fd := (filedata ++ [47]) ++ filename
  let datasize := fd.length
  (List.range 4).foldl (fun acc i => ((datasize >>> (8 * i)) &&& 255) :: acc) fd

/-! ## Marker scanner (`Header.readHeader`)

The dispatch in `readHeader` computes
`marker = supportedMarkers.get(currByte)` — an `Optional[str]` — and then
tests `marker in unsupportedMarkers`, a membership test of that string
(or `None`) against the *integer* keys of the `unsupportedMarkers` dict.
`PyVal`/`pyEq` model Python's cross-type `==`. -/

/-- A Python value as it appears in the dispatch: an int key, a marker
name string, or `None`. -/
inductive PyVal where
  | pyInt (n : ℕ)
  | pyStr (s : String)
  | pyNone
  deriving DecidableEq, Repr

/-- Python `==` on the above: equal ints, equal strings; any cross-type
comparison (and anything against `None`) is `False`. -/
def pyEq : PyVal → PyVal → Bool
  | .pyInt a, .pyInt b => a == b
  | .pyStr a, .pyStr b => a == b
  | _, _ => false

/-- The `supportedMarkers` dict of `jpeg.py`. -/
def supportedMarkers : List (ℕ × String) :=
  [(0xD8, "Start of Image (SOI)"),
   (0xE0, "JFIF segment marker (APP0)"),
   (0xDB, "Define Quantization Table (DQT)"),
   (0xC0, "Start of Frame (SOF)"),
   (0xC4, "Define Huffman Table (DHT)"),
   (0xDA, "Start of Scan (SOS)"),
   (0xD9, "End of Image (EOI)"),
   (0xDD, "Define Restart Interval (DRI)")]

/-- The `unsupportedMarkers` dict of `jpeg.py` (keys are marker bytes). -/
def unsupportedMarkers : List (ℕ × String) :=
  [(0xC1, "Extended Sequential DCT"),
   (0xC2, "Progressive DCT"),
   (0xC3, "Lossless"),
   (0xC5, "Differential Sequential DCT"),
   (0xC6, "Differential Progressive DCT"),
   (0xC7, "Differential Lossless"),
   (0xC9, "Extended Sequential DCT"),
   (0xCA, "Progressive DCT"),
   (0xCB, "Lossless (Sequential)"),
   (0xCD, "Differential Sequential DCT"),
   (0xCE, "Differential Progressive DCT"),
   (0xCF, "Differential Lossless"),
   (0xCC, "Arithmetic Coding"),
   (0x01, "TEM Marker - Arithmetic Coding"),
   (0xEF, "APP15"),
   (0xDC, "Define Number of Lines - DNL"),
   (0xDF, "Expand Reference Component")]

/-- Python `dict.get(k)`. -/
def dictGet (d : List (ℕ × String)) (k : ℕ) : Option String :=
  (d.find? (fun kv => kv.1 == k)).map (·.2)

/-- Python `v in dict`: membership among the dict's keys under `==`. -/
def pyInKeys (v : PyVal) (d : List (ℕ × String)) : Bool :=
  d.any (fun kv => pyEq v (.pyInt kv.1))

/-- The `Optional[str]` returned by `supportedMarkers.get` as a `PyVal`. -/
def optStrVal : Option String → PyVal
  | none => .pyNone
  | some s => .pyStr s

/-- `Header.readMarkerLength`: two big-endian bytes at `start`. -/
def readMarkerLength (data : List ℕ) (start : ℕ) : ℕ :=
  ((data.getD start 0) <<< 8) ||| data.getD (start + 1) 0

/-- The six per-segment parsers invoked by `readHeader`, abstracted over
the header state `σ`; `sosSet` reads `startOfScan.set`.  The C5 theorem
holds for *every* implementation of the parsers, because the dispatch
itself never reaches them on an unsupported marker. -/
structure MarkerParsers (σ : Type) where
  sosSet : σ → Bool
  readSOF : σ → List ℕ → ℕ → ℕ → Except VErr σ
  readSOS : σ → List ℕ → ℕ → ℕ → Except VErr σ
  readDRI : σ → List ℕ → ℕ → ℕ → Except VErr σ
  readDHT : σ → List ℕ → ℕ → ℕ → Except VErr σ
  readDQT : σ → List ℕ → ℕ → ℕ → Except VErr σ
  readAPP0 : σ → List ℕ → ℕ → ℕ → Except VErr σ

/-- The `while i < len(data)` loop of `Header.readHeader`.  Returns the
final header state and `bitstreamIndex` (0 unless SOS was observed while
scanning).  `i` grows by at least one per iteration, so
`data.length + 1` fuel is exhaustive. -/
def readHeaderLoop {σ : Type} (ps : MarkerParsers σ) (data : List ℕ) :
    ℕ → ℕ → σ → Except VErr (σ × ℕ)
  | 0, _, st => .ok (st, 0)
  | Nat.succ f, i, st =>
    if data.length ≤ i then .ok (st, 0)
    else if ps.sosSet st then .ok (st, i)
    else
      let currByte := data.getD i 0
      if currByte ≠ 0xFF then readHeaderLoop ps data f (i + 1) st
      else
        match data.get? (i + 1) with
        | none => .error .indexErr
        | some c2 =>
          if c2 = 0xD8 ∨ c2 = 0xD9 ∨ c2 = 0x01 ∨ c2 = 0xFF then
            readHeaderLoop ps data f (i + 2) st
          else
            let j := i + 2
            match data.get? j, data.get? (j + 1) with
            | some _, some _ =>
              let markerLen := readMarkerLength data j
              let marker := dictGet supportedMarkers c2
              let st' : Except VErr σ :=
                if marker = some "Start of Frame (SOF)" then ps.readSOF st data j markerLen
                else if marker = some "Start of Scan (SOS)" then ps.readSOS st data j markerLen
                else if marker = some "Define Restart Interval (DRI)" then ps.readDRI st data j markerLen
                else if marker = some "Define Huffman Table (DHT)" then ps.readDHT st data j markerLen
                else if marker = some "Define Quantization Table (DQT)" then ps.readDQT st data j markerLen
                else if marker = some "JFIF segment marker (APP0)" then ps.readAPP0 st data j markerLen
                else if pyInKeys (optStrVal marker) unsupportedMarkers then .error .unsupportedMarker
                else .ok st
              match st' with
              | .error e => .error e
              | .ok st' => readHeaderLoop ps data f (j + markerLen) st'
            | _, _ => .error .indexErr

/-- `Header.readHeader` on a byte buffer. -/
def readHeaderRun {σ : Type} (ps : MarkerParsers σ) (data : List ℕ) (st : σ) :
    Except VErr (σ × ℕ) :=
  readHeaderLoop ps data (data.length + 1) 0 st

/-- A trivial header state: no parser does anything, SOS never set. -/
def trivialParsers : MarkerParsers Unit :=
  ⟨fun _ => false, fun st _ _ _ => .ok st, fun st _ _ _ => .ok st,
   fun st _ _ _ => .ok st, fun st _ _ _ => .ok st, fun st _ _ _ => .ok st,
   fun st _ _ _ => .ok st⟩

/-! ## Coefficient length and the signed-coefficient wire rules
(`calculateCoeffLength`, `JPG.decodeBlock`, `JPG.writeBlock`) -/

/-- The `while coeff: coeff //= 2; len += 1` loop of
`calculateCoeffLength`. -/
def coeffLenLoop : ℕ → ℕ
  | 0 => 0
  | Nat.succ n => coeffLenLoop ((Nat.succ n) / 2) + 1
decreasing_by exact Nat.div_lt_self (Nat.succ_pos n) one_lt_two

/-- `calculateCoeffLength`: minimum number of bits of `|coeff|`
(0 for 0). -/
def calculateCoeffLength (coeff : ℤ) : ℕ :=
  coeffLenLoop coeff.natAbs

/-- The sign-extension rule of `JPG.decodeBlock`: an `s`-bit unsigned
value `u` decodes to `u - 2^s + 1` when `u < 2^(s-1)`, else to `u`.
(For `s = 0` Python compares against `pow(2,-1) = 0.5`; with `u = 0`
both the Python code and this ℕ-exponent model yield 0.) -/
def signExtendCoeff (u : ℕ) (s : ℕ) : ℤ :=
  if (u : ℤ) < 2 ^ (s - 1) then (u : ℤ) - 2 ^ s + 1 else (u : ℤ)

/-- The emission rule of `JPG.writeBlock`: negative coefficients are
decremented first (`coeff -= 1`), then `write_code(coeff, s)` emits the
`s` low bits of the (two's-complement) integer, i.e. `coeff mod 2^s`. -/
def encodeCoeffBits (c : ℤ) (s : ℕ) : ℕ :=
  ((if c < 0 then c - 1 else c) % (2 ^ s)).toNat

/-! ## Huffman symbol decoding (`JPG.readNextSymbol`) -/

/-- The fields of `HuffmanTable` used by decoding: 162 symbols, 17
cumulative offsets, 162 canonical codes. -/
structure HuffmanTable where
  symbols : List ℕ
  offsets : List ℕ
  codes : List ℕ
  deriving DecidableEq, Repr

instance : Inhabited HuffmanTable := ⟨⟨List.replicate 162 0, List.replicate 17 0, List.replicate 162 0⟩⟩

/-- The `for i in range(start, offsets[length])` scan inside
`readNextSymbol`: first index whose code matches `code` on the low
`length` bits (`mirror` is `2^length - 1`). -/
def scanSlot (codes : List ℕ) (code mirror : ℕ) : ℕ → ℕ → Option ℕ
  | 0, _ => none
  | Nat.succ k, i =>
    if (code &&& mirror) = ((codes.getD i 0) &&& mirror) then some i
    else scanSlot codes code mirror k (i + 1)

/-- The `while length <= 16 and not valid` loop of `readNextSymbol`,
`fuel` counting the remaining lengths (16 down to 0).  When the loop
exits with no match, `index` still holds its initial value 0, and the
function returns `symbols[0]` — it does *not* raise. -/
def readSymbolLoop (t : HuffmanTable) : ℕ → ℕ → ℕ → BitReader →
    Except VErr (ℕ × BitReader)
  | 0, _, _, r => .ok (t.symbols.getD 0 0, r)
  | Nat.succ fuel, length, code, r =>
    match r.readNextBit 1 with
    | .error e => .error e
    | .ok (b, r') =>
      let code' := (code <<< 1) ||| (b &&& 1)
      let start := t.offsets.getD (length - 1) 0
      let stop := t.offsets.getD length 0
      let mirror := 2 ^ length - 1
      match scanSlot t.codes code' mirror (stop - start) start with
      | some i => .ok (t.symbols.getD i 0, r')
      | none => readSymbolLoop t fuel (length + 1) code' r'

/-- `JPG.readNextSymbol`. -/
def readNextSymbol (t : HuffmanTable) (r : BitReader) :
    Except VErr (ℕ × BitReader) :=
  readSymbolLoop t 16 1 0 r

/-! ## Block decoding (`JPG.decodeBlock`) -/

/-- The `while coefficient_read < 63` AC loop of `decodeBlock`.  Returns
the updated 63-entry AC list, the reader, and the updated `Bits`
capacity counter.  Writing at an index ≥ 63 models the Python
`IndexError` on `channel.acCoeff[coefficient_read] = ...`.  Each
iteration advances `coefficient_read` by at least one, so 64 fuel is
exhaustive. -/
def decodeACLoop (ac : HuffmanTable) :
    ℕ → List ℤ → ℕ → BitReader → ℕ → Except VErr (List ℤ × BitReader × ℕ)
  | 0, coeffs, _, r, cnt => .ok (coeffs, r, cnt)
  | Nat.succ fuel, coeffs, k, r, cnt =>
    if 63 ≤ k then .ok (coeffs, r, cnt)
    else
      match readNextSymbol ac r with
      | .error e => .error e
      | .ok (symbol, r1) =>
        if symbol = 0x00 then .ok (coeffs, r1, cnt)
        else if symbol = 0xF0 then decodeACLoop ac fuel coeffs (k + 16) r1 cnt
        else
          let len := symbol &&& 0x0F
          let run := (symbol >>> 4) &&& 0x0F
          let k' := k + run
          match r1.readNextBit len with
          | .error e => .error e
          | .ok (u, r2) =>
            let signed := signExtendCoeff u len
            if 63 ≤ k' then .error .indexErr
            else
              let cnt' := if signed ≠ 0 ∧ signed ≠ 1 then cnt + 1 else cnt
              decodeACLoop ac fuel (coeffs.set k' signed) (k' + 1) r2 cnt'

/-- `JPG.decodeBlock`: DC symbol and coefficient, then the AC loop.  The
`finalDcCoeff` argument is accepted and ignored, exactly as in the
source. -/
def decodeBlock (ch : Channel) (r : BitReader) (cnt : ℕ) (_finalDcCoeff : ℤ)
    (dc ac : HuffmanTable) : Except VErr (Channel × BitReader × ℕ) :=
  match readNextSymbol dc r with
  | .error e => .error e
  | .ok (symbol, r1) =>
    let dcRes : Except VErr (ℤ × BitReader) :=
      if symbol = 0x00 then .ok (0, r1)
      else
        let len := symbol &&& 0x0F
        match r1.readNextBit len with
        | .error e => .error e
        | .ok (u, r2) => .ok (signExtendCoeff u len, r2)
    match dcRes with
    | .error e => .error e
    | .ok (dcVal, r2) =>
      match decodeACLoop ac 64 ch.acCoeff 0 r2 cnt with
      | .error e => .error e
      | .ok (coeffs, r3, cnt') => .ok (⟨dcVal, coeffs⟩, r3, cnt')

/-! ## MCU decoding and the entropy decoder
(`JPG.decodeMCU`, `JPG.decodeBitstream`) -/

/-- The SOF component record fields used by the decoder. -/
structure Component where
  identifier : ℕ
  quantizationTableNumber : ℕ
  acHuffmanTableId : ℕ
  dcHuffmanTableId : ℕ
  verticalSamplingFactor : ℕ
  horizontalSamplingFactor : ℕ
  deriving DecidableEq, Repr

instance : Inhabited Component := ⟨⟨0, 0, 0, 0, 0, 0⟩⟩

/-- The header fields consumed by `decodeBitstream` and `decodeMCU`. -/
structure Header where
  width : ℕ
  height : ℕ
  numOfComponents : ℕ
  components : List Component
  dcHuffmanTables : List HuffmanTable
  acHuffmanTables : List HuffmanTable
  bitstreamIndex : ℕ
  deriving Inhabited

/-- The `for i in range(luminanceBlocks)` loop of `decodeMCU`, decoding
into `mcu.luminance[i]` and threading `finalDcCoeff`. -/
def decodeLumLoop (dcT acT : HuffmanTable) :
    ℕ → ℕ → MinimumCodedUnit → BitReader → ℕ → ℤ →
    Except VErr (MinimumCodedUnit × BitReader × ℕ × ℤ)
  | 0, _, mcu, r, cnt, fdc => .ok (mcu, r, cnt, fdc)
  | Nat.succ n, i, mcu, r, cnt, fdc =>
    match decodeBlock (mcu.luminance.getD i default) r cnt fdc dcT acT with
    | .error e => .error e
    | .ok (ch, r', cnt') =>
      decodeLumLoop dcT acT n (i + 1)
        { mcu with luminance := mcu.luminance.set i ch } r' cnt' ch.dcCoeff

/-- Python `self.header.dcHuffmanTables[id]`: raises `IndexError` when
the table id runs past the two destination slots. -/
def tableAt (ts : List HuffmanTable) (id : ℕ) : Except VErr HuffmanTable :=
  match ts.get? id with
  | none => .error .indexErr
  | some t => .ok t

/-- `JPG.decodeMCU`: `hSamp*vSamp` luminance blocks with component 0's
tables, then (for multi-component images) one Cb and one Cr block with
components 1 and 2's tables. -/
def decodeMCU (h : Header) (mcu : MinimumCodedUnit) (r : BitReader)
    (cnt : ℕ) (fdc : ℤ) : Except VErr (MinimumCodedUnit × BitReader × ℕ) :=
  let comp0 := h.components.getD 0 default
  let luminanceBlocks := comp0.horizontalSamplingFactor * comp0.verticalSamplingFactor
  match tableAt h.dcHuffmanTables comp0.dcHuffmanTableId,
        tableAt h.acHuffmanTables comp0.acHuffmanTableId with
  | .ok dcT, .ok acT =>
    match decodeLumLoop dcT acT luminanceBlocks 0 mcu r cnt fdc with
    | .error e => .error e
    | .ok (mcu1, r1, cnt1, fdc1) =>
      if 1 < h.numOfComponents then
        let comp1 := h.components.getD 1 default
        let comp2 := h.components.getD 2 default
        match tableAt h.dcHuffmanTables comp1.dcHuffmanTableId,
              tableAt h.acHuffmanTables comp1.acHuffmanTableId with
        | .ok dcT1, .ok acT1 =>
          match decodeBlock (mcu1.chrominance.getD 0 default) r1 cnt1 fdc1 dcT1 acT1 with
          | .error e => .error e
          | .ok (cb, r2, cnt2) =>
            let mcu2 := { mcu1 with chrominance := mcu1.chrominance.set 0 cb }
            match tableAt h.dcHuffmanTables comp2.dcHuffmanTableId,
                  tableAt h.acHuffmanTables comp2.acHuffmanTableId with
            | .ok dcT2, .ok acT2 =>
              match decodeBlock (mcu2.chrominance.getD 1 default) r2 cnt2 cb.dcCoeff dcT2 acT2 with
              | .error e => .error e
              | .ok (cr, r3, cnt3) =>
                .ok ({ mcu2 with chrominance := mcu2.chrominance.set 1 cr }, r3, cnt3)
            | .error e, _ => .error e
            | _, .error e => .error e
        | .error e, _ => .error e
        | _, .error e => .error e
      else .ok (mcu1, r1, cnt1)
  | .error e, _ => .error e
  | _, .error e => .error e

/-- The byte-unstuffing loop at the top of `decodeBitstream`: copy from
`bitstreamIndex` on, skipping the `0x00` of every `FF 00` pair.  Reading
`data[i+1]` past the end is the Python `IndexError`. -/
def unstuffLoop (data : List ℕ) : ℕ → ℕ → List ℕ → Except VErr (List ℕ)
  | 0, _, acc => .ok acc
  | Nat.succ f, i, acc =>
    if data.length ≤ i then .ok acc
    else
      let b := data.getD i 0
      let acc' := acc ++ [b]
      if b = 0xFF then
        match data.get? (i + 1) with
        | none => .error .indexErr
        | some b2 => unstuffLoop data f (if b2 = 0x00 then i + 2 else i + 1) acc'
      else unstuffLoop data f (i + 1) acc'

/-- The `for i in range(totalMCU)` loop of `decodeBitstream`:
`finalDcCoeff` is taken from the previous MCU's `chrominance[1]` DC
(0 for the first MCU), and each decoded MCU is appended. -/
def decodeMCULoop (h : Header) :
    ℕ → List MinimumCodedUnit → BitReader → ℕ →
    Except VErr (List MinimumCodedUnit × BitReader × ℕ)
  | 0, acc, r, cnt => .ok (acc, r, cnt)
  | Nat.succ n, acc, r, cnt =>
    let fdc : ℤ :=
      match acc.getLast? with
      | none => 0
      | some m => (m.chrominance.getD 1 default).dcCoeff
    match decodeMCU h MinimumCodedUnit.init r cnt fdc with
    | .error e => .error e
    | .ok (mcu, r', cnt') => decodeMCULoop h n (acc ++ [mcu]) r' cnt'

/-- `JPG.decodeBitstream`: unstuff the entropy bytes, compute the MCU
geometry from the SOF dimensions and the luminance sampling factors, and
decode `totalMCU` MCUs.  Returns the MCU vector and the `Bits` capacity
counter. -/
def decodeBitstream (h : Header) (data : List ℕ) :
    Except VErr (List MinimumCodedUnit × ℕ) :=
  match unstuffLoop data (data.length + 1) h.bitstreamIndex [] with
  | .error e => .error e
  | .ok bytestream =>
    let comp0 := h.components.getD 0 default
    let bWidth0 := (h.width + 7) / 8
    let bHeight0 := (h.height + 7) / 8
    let bWidth :=
      if bWidth0 % 2 = 1 ∧ comp0.horizontalSamplingFactor = 2 then bWidth0 + 1 else bWidth0
    let bHeight :=
      if bHeight0 % 2 = 1 ∧ comp0.verticalSamplingFactor = 2 then bHeight0 + 1 else bHeight0
    let totalBlocks := bHeight * bWidth
    let totalMCU := totalBlocks / (comp0.verticalSamplingFactor * comp0.horizontalSamplingFactor)
    match decodeMCULoop h totalMCU [] (BitReader.init bytestream) 0 with
    | .error e => .error e
    | .ok (mcus, _, cnt) => .ok (mcus, cnt)


/-- `n` successive `readNextBit()` (single-bit) calls on a fresh
`BitReader`, collecting the returned bits. -/
def runReader (d : List ℕ) : ℕ → Except VErr (List ℕ × BitReader)
  | 0 => .ok ([], BitReader.init d)
  | Nat.succ n =>
    match runReader d n with
    | .error e => .error e
    | .ok (bs, r) =>
      match r.readNextBit 1 with
      | .error e => .error e
      | .ok (b, r') => .ok (bs ++ [b], r')

/-- The bit the wrapped cursor delivers on the `n`-th single-bit read:
byte index `(n / 8) % 256`, MSB first within the byte. -/
def bitAtWrapped (d : List ℕ) (n : ℕ) : ℕ :=
  ((d.getD ((n / 8) % 256) 0) >>> (7 - n % 8)) &&& 1

/-- `n` successive single-bit reads starting from an arbitrary reader
state, front-first. -/
def readBitsFrom (r : BitReader) : ℕ → Except VErr (List ℕ × BitReader)
  | 0 => .ok ([], r)
  | Nat.succ n =>
    match r.readNextBit 1 with
    | .error e => .error e
    | .ok (b, r') =>
      match readBitsFrom r' n with
      | .error e => .error e
      | .ok (bs, rEnd) => .ok (b :: bs, rEnd)

/-- The Huffman code accumulated by `readNextSymbol` after OR-ing in the
given bits, starting from `code`. -/
def codeValFrom (code : ℕ) (bits : List ℕ) : ℕ :=
  bits.foldl (fun a b => (a <<< 1) ||| (b &&& 1)) code

/-- A coefficient the JSteg walker will use: neither 0 nor 1 (note that
`-1` *is* usable — the source only skips 0 and 1). -/
def usableCoeff (c : ℤ) : Bool :=
  decide (c ≠ 0 ∧ c ≠ 1)

/-- The one-symbol DC table used by the concrete C3/C9 runs: a single
1-bit code 0 for symbol 0x00. -/
def dcTableTiny : HuffmanTable :=
  ⟨[0x00], [0, 1, 1, 1, 1, 1, 1, 1, 1, 1, 1, 1, 1, 1, 1, 1, 1], [0]⟩

/-- Counterexample AC table: 1-bit code 0 → symbol 0x01 (run 0,
length 1) and 1-bit code 1 → symbol 0x00 (EOB). -/
def acTableTiny : HuffmanTable :=
  ⟨[0x01, 0x00], [0, 2, 2, 2, 2, 2, 2, 2, 2, 2, 2, 2, 2, 2, 2, 2, 2], [0, 1]⟩

/-- A 1×1 grayscale header wired to the tiny Huffman tables. -/
def tinyHeader : Header :=
  { width := 1, height := 1, numOfComponents := 1,
    components := [⟨1, 0, 0, 0, 1, 1⟩, default, default],
    dcHuffmanTables := [dcTableTiny],
    acHuffmanTables := [acTableTiny],
    bitstreamIndex := 0 }

/-! ## Walker index machinery

The walker state is equivalent to a single linear position: MCU `m`,
then the `hv` luminance channels, then the two chrominance channels,
63 AC slots each.  The source validates the sampling factors, so
`hv = hSamp * vSamp ∈ {1, 2, 4}`. -/

/-- Positions the walker visits per MCU. -/
def mcuSpan (hv : ℕ) : ℕ := (hv + 2) * 63

/-- Well-formed walker states (all states reachable from
`WalkState.init` under a valid `hv`). -/
def WFState (hv : ℕ) (s : WalkState) : Prop :=
  (s.ChannelType = true → s.ChannelNumber < hv) ∧
  (s.ChannelType = false → s.ChannelNumber < 2) ∧
  s.Coefficient < 63

/-- The linear position of a walker state. -/
def stateIdx (hv : ℕ) (s : WalkState) : ℕ :=
  s.currMCU * mcuSpan hv +
    (if s.ChannelType then s.ChannelNumber * 63 else (hv + s.ChannelNumber) * 63) +
    s.Coefficient

/-- The well-formed walker state at a given linear position. -/
def stateOfIdx (hv i : ℕ) : WalkState :=
  if i % mcuSpan hv < hv * 63 then
    ⟨i / mcuSpan hv, (i % mcuSpan hv) / 63, true, (i % mcuSpan hv) % 63⟩
  else
    ⟨i / mcuSpan hv, (i % mcuSpan hv) / 63 - hv, false, (i % mcuSpan hv) % 63⟩

/-- Valid sampling products. -/
def ValidHV (hv : ℕ) : Prop := hv = 1 ∨ hv = 2 ∨ hv = 4
/-- Structural wellformedness of a decoded MCU vector: 4 luminance and
2 chrominance channels, 63 AC coefficients each. -/
def WFVec (v : List MinimumCodedUnit) : Prop :=
  ∀ m ∈ v, m.luminance.length = 4 ∧ m.chrominance.length = 2 ∧
    (∀ ch ∈ m.luminance, ch.acCoeff.length = 63) ∧
    (∀ ch ∈ m.chrominance, ch.acCoeff.length = 63)

/-- All AC coefficients lie in the `int8`-faithful range `[-128, 127]`. -/
def InRangeVec (v : List MinimumCodedUnit) : Prop :=
  ∀ m ∈ v, (∀ ch ∈ m.luminance, ∀ x ∈ ch.acCoeff, -128 ≤ x ∧ x ≤ 127) ∧
    (∀ ch ∈ m.chrominance, ∀ x ∈ ch.acCoeff, -128 ≤ x ∧ x ≤ 127)

/-- The locator tuple `findCoeff` builds at state `s`. -/
def tupOfState (v : List MinimumCodedUnit) (s : WalkState) : CoeffTuple :=
  ⟨s.Coefficient, readCoeff v s, s.ChannelType, s.ChannelNumber, s.currMCU⟩

/-- The coefficient at linear position `i`. -/
def readIdx (hv : ℕ) (v : List MinimumCodedUnit) (i : ℕ) : ℤ :=
  readCoeff v (stateOfIdx hv i)

/-- Number of usable positions at linear index `≥ i`, computed with
explicit fuel so that it evaluates by kernel reduction. -/
def usableFromAux (hv : ℕ) (v : List MinimumCodedUnit) : ℕ → ℕ → ℕ
  | 0, _ => 0
  | Nat.succ fuel, i =>
    if i < v.length * mcuSpan hv then
      (if usableCoeff (readIdx hv v i) then 1 else 0) + usableFromAux hv v fuel (i + 1)
    else 0

/-- Number of usable coefficient positions the walker can still reach
from linear position `i`. -/
def usableFrom (hv : ℕ) (v : List MinimumCodedUnit) (i : ℕ) : ℕ :=
  usableFromAux hv v (v.length * mcuSpan hv - i) i

/-- Proof-side primitive extraction loop: read `n` LSBs through the
extraction walker, front-first. -/
def extractBits (hv : ℕ) (v : List MinimumCodedUnit) (fuel : ℕ) :
    ℕ → WalkState → Except VErr (List ℕ × WalkState)
  | 0, s => .ok ([], s)
  | Nat.succ n, s =>
    match findAvailableCoeffExtract hv v fuel s with
    | .error e => .error e
    | .ok (c, s') =>
      match extractBits hv v fuel n s' with
      | .error e => .error e
      | .ok (bs, sE) => .ok (lsbOf c :: bs, sE)

/-- Pure packing function mirrored from the data loop of
`extractFromJPG`. -/
def packBitsFrom : ℕ → ℕ → List ℕ → List ℕ → List ℕ
  | _, _, acc, [] => acc
  | i, byte, acc, b :: bs =>
    let byte' := ((byte <<< 1) ||| b) % 4294967296
    if i % 8 = 0 then packBitsFrom (i + 1) 0 (acc ++ [byte']) bs
    else packBitsFrom (i + 1) byte' acc bs

def vC2 : List MinimumCodedUnit :=
  [⟨[⟨0, List.replicate 63 2⟩, Channel.init, Channel.init, Channel.init],
    [Channel.init, Channel.init]⟩]

def vC2x : List MinimumCodedUnit :=
  [⟨[⟨0, (-1 : ℤ) :: List.replicate 62 2⟩, Channel.init, Channel.init, Channel.init],
    [Channel.init, Channel.init]⟩]

def vC2x' : List MinimumCodedUnit :=
  [⟨[⟨0, (-2 : ℤ) :: List.replicate 62 2⟩, Channel.init, Channel.init, Channel.init],
    [Channel.init, Channel.init]⟩]

/-- The eight bits of a byte, MSB first. -/
def byteBits (b : ℕ) : List ℕ :=
  (List.range 8).map (fun u => (b >>> (7 - u)) &&& 1)

/-- MSB-first bit expansion of a byte string. -/
def bitsOfBytes : List ℕ → List ℕ
  | [] => []
  | b :: bs => byteBits b ++ bitsOfBytes bs

def vC1 : List MinimumCodedUnit :=
  [⟨[⟨0, List.replicate 63 5⟩, Channel.init, Channel.init, Channel.init],
    [Channel.init, Channel.init]⟩]

def vC1W : List MinimumCodedUnit :=
  [⟨[⟨0, List.replicate 63 5⟩, Channel.init, Channel.init, Channel.init],
    [Channel.init, Channel.init]⟩]

/-! ## Helper facts about `coeffLenLoop` -/

theorem coeffLenLoop_pos {n : ℕ} (h : 1 ≤ n) : 1 ≤ coeffLenLoop n := by
  cases n with
  | zero => omega
  | succ m => rw [coeffLenLoop]; omega

theorem coeffLenLoop_bounds : ∀ n : ℕ, 1 ≤ n →
    2 ^ (coeffLenLoop n - 1) ≤ n ∧ n < 2 ^ coeffLenLoop n := by
  intro n
  induction n using Nat.strong_induction_on with
  | _ n ih =>
    intro hn
    match n, hn with
    | 1, _ => simp [coeffLenLoop]
    | (m+2), _ =>
      have hrec : coeffLenLoop (m+2) = coeffLenLoop ((m+2)/2) + 1 := by
        rw [coeffLenLoop]
      have hlt : (m+2)/2 < m+2 := by omega
      have hpos : 1 ≤ (m+2)/2 := by omega
      obtain ⟨h1, h2⟩ := ih ((m+2)/2) hlt hpos
      have hp := coeffLenLoop_pos hpos
      constructor
      · calc 2 ^ (coeffLenLoop (m+2) - 1) = 2 ^ (coeffLenLoop ((m+2)/2) - 1) * 2 := by
              rw [hrec]
              have : coeffLenLoop ((m+2)/2) - 1 + 1 = coeffLenLoop ((m+2)/2) + 1 - 1 := by omega
              rw [← pow_succ]
              congr 1
              omega
          _ ≤ (m+2)/2 * 2 := by omega
          _ ≤ m + 2 := by omega
      · have : m + 2 < 2 ^ (coeffLenLoop ((m+2)/2)) * 2 := by omega
        calc m + 2 < 2 ^ (coeffLenLoop ((m+2)/2)) * 2 := this
          _ = 2 ^ (coeffLenLoop (m+2)) := by rw [hrec, pow_succ]

/-- A floored remainder of a negative value one period below the range. -/
theorem emod_of_neg_range {x p : ℤ} (h1 : -p ≤ x) (h2 : x < 0) : x % p = x + p := by
  have h : (x + p * 1) % p = x % p := Int.add_mul_emod_self_left x p 1
  have h' : (x + p * 1) % p = x + p := by
    rw [mul_one]
    exact Int.emod_eq_of_lt (by omega) (by omega)
  omega

/-- C8: for every nonzero signed coefficient, emitting it under the
encoder's rule of `JPG.writeBlock` (subtract 1 when negative, then take
the low `s` bits, `s = calculateCoeffLength c`) and applying the
decoder's sign-extension rule of `JPG.decodeBlock` recovers the
coefficient exactly. -/
theorem claim_C8_sign_extension_inverse (c : ℤ) (hc : c ≠ 0) :
    signExtendCoeff (encodeCoeffBits c (calculateCoeffLength c))
      (calculateCoeffLength c) = c := by
  have habs : 1 ≤ c.natAbs := by
    rcases Int.natAbs_eq c with h | h <;> omega
  obtain ⟨hlo, hhi⟩ := coeffLenLoop_bounds c.natAbs habs
  have hs1 := coeffLenLoop_pos habs
  simp only [calculateCoeffLength, encodeCoeffBits, signExtendCoeff]
  set s := coeffLenLoop c.natAbs with hs
  have hspow : (2:ℤ) ^ (s - 1) * 2 = 2 ^ s := by
    rw [← pow_succ]
    congr 1
    omega
  have hlo' : (2:ℤ) ^ (s - 1) ≤ c.natAbs := by exact_mod_cast hlo
  have hhi' : (c.natAbs : ℤ) < 2 ^ s := by exact_mod_cast hhi
  have hpow_pos : (0:ℤ) < 2 ^ s := by positivity
  rcases lt_or_gt_of_ne hc with hneg | hpos
  · -- negative coefficient
    have hcabs : (c.natAbs : ℤ) = -c := by
      rcases Int.natAbs_eq c with h | h <;> omega
    have hif : (if c < 0 then c - 1 else c) = c - 1 := if_pos hneg
    have hemod : (c - 1) % ((2:ℤ) ^ s) = c - 1 + 2 ^ s :=
      emod_of_neg_range (by omega) (by omega)
    rw [hif, hemod]
    have htn : (((c - 1 + 2 ^ s).toNat : ℤ)) = c - 1 + 2 ^ s :=
      Int.toNat_of_nonneg (by omega)
    rw [if_pos (by rw [htn]; omega)]
    omega
  · -- positive coefficient
    have hcabs : (c.natAbs : ℤ) = c := by
      rcases Int.natAbs_eq c with h | h <;> omega
    have hif : (if c < 0 then c - 1 else c) = c := if_neg (by omega)
    have hemod : c % ((2:ℤ) ^ s) = c := Int.emod_eq_of_lt (by omega) (by omega)
    rw [hif, hemod]
    have htn : ((c.toNat : ℤ)) = c := Int.toNat_of_nonneg (by omega)
    rw [if_neg (by rw [htn]; omega)]
    omega

/-- Witness for C8 at `c = -5`: the coefficient length is 3 and the
round trip through the wire rules recovers `-5`. -/
theorem claim_C8_witness :
    (-5 : ℤ) ≠ 0 ∧
      signExtendCoeff (encodeCoeffBits (-5) (calculateCoeffLength (-5)))
        (calculateCoeffLength (-5)) = -5 :=
  ⟨by decide, claim_C8_sign_extension_inverse (-5) (by decide)⟩

/-- C7: the framed payload built by `prepFileToInject` is exactly four
length bytes `(datasize >> (8*i)) & 0xFF` (each inserted at position 0,
so they end up most-significant first), then the raw file bytes, then
`'/'` (0x2F), then the basename bytes; and reading the four length
bytes back most-significant first (as extraction does) recovers
`datasize`, the length of file ‖ `'/'` ‖ basename. -/
theorem claim_C7_frame_format (file name : List ℕ) (s : ℕ)
    (hsize : s = file.length + 1 + name.length) :
    prepFileToInject file name =
      ((s >>> (8 * 3)) &&& 255) :: ((s >>> (8 * 2)) &&& 255) ::
      ((s >>> (8 * 1)) &&& 255) :: ((s >>> (8 * 0)) &&& 255) ::
      (file ++ 47 :: name)
    ∧ (s < 2 ^ 32 →
        ((s >>> 24) &&& 255) * 2 ^ 24 + ((s >>> 16) &&& 255) * 2 ^ 16 +
          ((s >>> 8) &&& 255) * 2 ^ 8 + (s &&& 255) = s) := by
  constructor
  · have hlen : ((file ++ [47]) ++ name).length = s := by
      simp [hsize]
      omega
    simp only [prepFileToInject, hlen]
    simp [List.range_succ]
  · intro hlt
    have h255 : (255 : ℕ) = 2 ^ 8 - 1 := by norm_num
    simp only [h255, Nat.and_pow_two_sub_one_eq_mod, Nat.shiftRight_eq_div_pow]
    omega

/-- Witness for C7 on the 3-byte file `"ABC"` with basename `"msg.txt"`. -/
theorem claim_C7_witness :
    (11 : ℕ) = [65, 66, 67].length + 1 + [109, 115, 103, 46, 116, 120, 116].length
    ∧ prepFileToInject [65, 66, 67] [109, 115, 103, 46, 116, 120, 116] =
        ((11 >>> (8 * 3)) &&& 255) :: ((11 >>> (8 * 2)) &&& 255) ::
        ((11 >>> (8 * 1)) &&& 255) :: ((11 >>> (8 * 0)) &&& 255) ::
        ([65, 66, 67] ++ 47 :: [109, 115, 103, 46, 116, 120, 116]) :=
  ⟨by decide,
   (claim_C7_frame_format [65, 66, 67] [109, 115, 103, 46, 116, 120, 116] 11 (by decide)).1⟩

/-- A single in-range bit read, written out explicitly. -/
theorem readNextBit_one_ok (r : BitReader) (hflag : r.read_ = false)
    (hlt : r.currByte_ < r.data_.length) :
    r.readNextBit 1 = .ok ((r.data_.getD r.currByte_ 0 >>> (7 - r.currBit_)) &&& 1,
      ⟨r.data_,
       if (r.currBit_ + 1) % 8 = 0 then (r.currByte_ + 1) % 256 else r.currByte_,
       (r.currBit_ + 1) % 8,
       decide (r.data_.length ≤
         (if (r.currBit_ + 1) % 8 = 0 then (r.currByte_ + 1) % 256 else r.currByte_))⟩) := by
  have hget : r.data_.get? r.currByte_ = some (r.data_.getD r.currByte_ 0) := by
    rw [List.getD_eq_getElem?_getD, List.get?_eq_getElem?,
      List.getElem?_eq_getElem hlt, Option.getD_some]
  have hbit : (r.data_.getD r.currByte_ 0 >>> (7 - r.currBit_)) &&& 1 < 256 := by
    rw [Nat.and_one_is_mod]
    omega
  simp only [BitReader.readNextBit, BitReader.readLoop, BitReader.readStep, hflag,
    Bool.false_eq_true, if_false, hget, Nat.zero_shiftLeft, Nat.zero_or,
    Nat.mod_eq_of_lt hbit]

/-- For a buffer of at least 256 bytes, every run of single-bit reads
succeeds, the `uint8` byte cursor sits at `(n/8) % 256`, and the
exhausted flag is never set. -/
theorem runReader_long (d : List ℕ) (h : 256 ≤ d.length) (n : ℕ) :
    runReader d n =
      .ok ((List.range n).map (bitAtWrapped d), ⟨d, (n / 8) % 256, n % 8, false⟩) := by
  induction n with
  | zero => simp [runReader, BitReader.init]
  | succ n ih =>
    rw [runReader, ih]
    dsimp only
    have hlt : (n / 8) % 256 < d.length := by
      have : (n / 8) % 256 < 256 := Nat.mod_lt _ (by norm_num)
      omega
    rw [readNextBit_one_ok _ rfl hlt]
    have hbyte : (if (n % 8 + 1) % 8 = 0 then ((n / 8) % 256 + 1) % 256 else (n / 8) % 256)
        = ((n + 1) / 8) % 256 := by
      split <;> omega
    have hflag : decide (d.length ≤
        (if (n % 8 + 1) % 8 = 0 then ((n / 8) % 256 + 1) % 256 else (n / 8) % 256)) = false := by
      rw [hbyte]
      have : ((n + 1) / 8) % 256 < 256 := Nat.mod_lt _ (by norm_num)
      simp
      omega
    simp only [hbyte, hflag]
    rw [List.range_succ, List.map_append]
    simp [bitAtWrapped]
    omega

/-- For a nonempty buffer shorter than 256 bytes, reads up to the end of
the data succeed without cursor wrap, and the sticky flag becomes set
exactly when the final byte has been consumed. -/
theorem runReader_short (d : List ℕ) (h1 : 1 ≤ d.length) (h2 : d.length < 256)
    (n : ℕ) (hn : n ≤ 8 * d.length) :
    runReader d n =
      .ok ((List.range n).map (bitAtWrapped d),
        ⟨d, n / 8, n % 8, decide (8 * d.length ≤ n)⟩) := by
  induction n with
  | zero =>
    rw [show decide (8 * d.length ≤ 0) = false from decide_eq_false (by omega)]
    simp [runReader, BitReader.init]
  | succ n ih =>
    have hn' : n ≤ 8 * d.length := by omega
    rw [runReader, ih hn']
    dsimp only
    have hflagn : decide (8 * d.length ≤ n) = false := decide_eq_false (by omega)
    rw [hflagn]
    have hlt : n / 8 < d.length := by omega
    rw [readNextBit_one_ok ⟨d, n / 8, n % 8, false⟩ rfl hlt]
    have hbit8 : (n % 8 + 1) % 8 = (n + 1) % 8 := by omega
    have hbyte : (if (n + 1) % 8 = 0 then (n / 8 + 1) % 256 else n / 8)
        = (n + 1) / 8 := by
      split <;> omega
    have hflag : decide (d.length ≤ (n + 1) / 8) = decide (8 * d.length ≤ n + 1) := by
      rw [decide_eq_decide]
      omega
    have hidx : (n / 8) % 256 = n / 8 := Nat.mod_eq_of_lt (by omega)
    rw [List.range_succ, List.map_append]
    simp only [hbit8, hbyte, hflag, bitAtWrapped, hidx, List.map_cons, List.map_nil]

/-- C10: the `BitReader` byte cursor is a numpy `uint8` and advances
modulo 256.  (i) For every buffer of at least 256 bytes, every run of
single-bit reads succeeds with the cursor at `(n/8) % 256` and the
sticky exhausted flag never set; (ii) on such buffers the delivered bit
stream is 2048-bit periodic, so after 256 bytes the reads come from the
start of the buffer again; (iii) for a nonempty buffer shorter than 256
bytes, the flag is set once all `8·len` bits have been consumed. -/
theorem claim_C10_cursor_wrap :
    (∀ d : List ℕ, 256 ≤ d.length → ∀ n : ℕ,
      runReader d n =
        .ok ((List.range n).map (bitAtWrapped d), ⟨d, (n / 8) % 256, n % 8, false⟩))
    ∧ (∀ d : List ℕ, ∀ n : ℕ, bitAtWrapped d n = bitAtWrapped d (n % 2048))
    ∧ (∀ d : List ℕ, 1 ≤ d.length → d.length < 256 →
        ∃ bs, runReader d (8 * d.length) = .ok (bs, ⟨d, d.length, 0, true⟩)) := by
  refine ⟨fun d h n => runReader_long d h n, fun d n => ?_, fun d h1 h2 => ?_⟩
  · unfold bitAtWrapped
    have h1 : (n / 8) % 256 = (n % 2048 / 8) % 256 := by omega
    have h2 : n % 8 = n % 2048 % 8 := by omega
    rw [h1, h2]
  · refine ⟨(List.range (8 * d.length)).map (bitAtWrapped d), ?_⟩
    rw [runReader_short d h1 h2 (8 * d.length) le_rfl]
    rw [show decide (8 * d.length ≤ 8 * d.length) = true from decide_eq_true le_rfl]
    have e1 : 8 * d.length / 8 = d.length := by omega
    have e2 : 8 * d.length % 8 = 0 := by omega
    rw [e1, e2]

/-- Witness for C10 on a 256-byte buffer (2049 reads wrap to bit 1) and
on a 2-byte buffer (16 reads set the exhausted flag). -/
theorem claim_C10_witness :
    (256 ≤ (List.replicate 256 (0xA7 : ℕ)).length) ∧
    runReader (List.replicate 256 (0xA7 : ℕ)) 2049 =
      .ok ((List.range 2049).map (bitAtWrapped (List.replicate 256 (0xA7 : ℕ))),
        ⟨List.replicate 256 (0xA7 : ℕ), 0, 1, false⟩) ∧
    (∃ bs, runReader [0xAB, 0xCD] 16 = .ok (bs, ⟨[0xAB, 0xCD], 2, 0, true⟩)) :=
  ⟨by rw [List.length_replicate],
   claim_C10_cursor_wrap.1 (List.replicate 256 0xA7) (by rw [List.length_replicate]) 2049,
   claim_C10_cursor_wrap.2.2 [0xAB, 0xCD] (by decide) (by decide)⟩

/-- C5 (divergence witness): scanning a buffer that contains the
unsupported progressive-DCT marker `FF C2` raises nothing.  The source's
guard `elif marker in unsupportedMarkers:` compares the `Optional[str]`
result of `supportedMarkers.get(currByte)` against the *integer* keys of
`unsupportedMarkers`, which is always false in Python, so the
`raise Exception('Unsupported marker ...')` branch is unreachable — for
every implementation of the six segment parsers and any header state
with SOS not yet seen, `readHeader` returns normally. -/
theorem claim_C5_unsupported_marker_not_fatal {σ : Type}
    (ps : MarkerParsers σ) (st : σ) (hsos : ps.sosSet st = false) :
    readHeaderRun ps [0xFF, 0xC2, 0x00, 0x04, 0x00, 0x00] st = .ok (st, 0) := by
  simp [readHeaderRun, readHeaderLoop, hsos, readMarkerLength, dictGet,
    supportedMarkers, unsupportedMarkers, pyInKeys, optStrVal, pyEq]

/-- Witness for C5 with the trivial parser implementation. -/
theorem claim_C5_witness :
    trivialParsers.sosSet () = false ∧
    readHeaderRun trivialParsers [0xFF, 0xC2, 0x00, 0x04, 0x00, 0x00] () = .ok ((), 0) :=
  ⟨rfl, claim_C5_unsupported_marker_not_fatal trivialParsers () rfl⟩

/-- The inner loop of `readNextSymbol` when every length slot misses:
the loop runs to exhaustion and the function returns `symbols[0]`
(the never-assigned initial `index`), raising nothing. -/
theorem readSymbolLoop_all_miss (t : HuffmanTable) :
    ∀ (f L code : ℕ) (r : BitReader) (bits : List ℕ) (rEnd : BitReader),
    readBitsFrom r f = .ok (bits, rEnd) →
    (∀ j, j ≤ f → 1 ≤ j →
      scanSlot t.codes (codeValFrom code (bits.take j)) (2 ^ (L + j - 1) - 1)
        (t.offsets.getD (L + j - 1) 0 - t.offsets.getD (L + j - 1 - 1) 0)
        (t.offsets.getD (L + j - 1 - 1) 0) = none) →
    readSymbolLoop t f L code r = .ok (t.symbols.getD 0 0, rEnd) := by
  intro f
  induction f with
  | zero =>
    intro L code r bits rEnd hbits _
    simp only [readBitsFrom] at hbits
    cases hbits
    rfl
  | succ f ih =>
    intro L code r bits rEnd hbits hmiss
    rw [readBitsFrom] at hbits
    cases hb : r.readNextBit 1 with
    | error e => rw [hb] at hbits; cases hbits
    | ok p =>
      obtain ⟨b, r'⟩ := p
      rw [hb] at hbits
      dsimp only at hbits
      cases hrest : readBitsFrom r' f with
      | error e => rw [hrest] at hbits; cases hbits
      | ok q =>
        obtain ⟨bs, rE⟩ := q
        rw [hrest] at hbits
        dsimp only at hbits
        cases hbits
        rw [readSymbolLoop, hb]
        dsimp only
        have h1 := hmiss 1 (by omega) le_rfl
        simp only [List.take_succ_cons, List.take_zero, codeValFrom, List.foldl_cons,
          List.foldl_nil, show L + 1 - 1 = L by omega] at h1
        rw [h1]
        exact ih (L + 1) ((code <<< 1) ||| (b &&& 1)) r' bs rEnd hrest
          (fun j hjf hj1 => by
            have h2 := hmiss (j + 1) (by omega) (by omega)
            simp only [List.take_succ_cons, codeValFrom, List.foldl_cons,
              show L + (j + 1) - 1 = L + 1 + j - 1 by omega] at h2
            exact h2)

/-- C6 (amended): when no code in the table matches after accumulating
up to 16 bits, `readNextSymbol` does *not* fail — it returns
`symbols[0]`, the symbol at the never-assigned initial `index = 0`. -/
theorem claim_C6_no_match_returns_symbol_zero (t : HuffmanTable)
    (r : BitReader) (bits : List ℕ) (rEnd : BitReader)
    (hbits : readBitsFrom r 16 = .ok (bits, rEnd))
    (hmiss : ∀ j, j ≤ 16 → 1 ≤ j →
      scanSlot t.codes (codeValFrom 0 (bits.take j)) (2 ^ j - 1)
        (t.offsets.getD j 0 - t.offsets.getD (j - 1) 0)
        (t.offsets.getD (j - 1) 0) = none) :
    readNextSymbol t r = .ok (t.symbols.getD 0 0, rEnd) := by
  unfold readNextSymbol
  exact readSymbolLoop_all_miss t 16 1 0 r bits rEnd hbits
    (fun j hj16 hj1 => by
      have h := hmiss j hj16 hj1
      simpa [show 1 + j - 1 = j by omega] using h)

/-- Counterexample to C6 as stated: on a Huffman table whose 16 length
slots are all empty (`offsets` all zero), `readNextSymbol` accumulates
16 bits without a match and then *returns* `symbols[0] = 0x77` instead
of failing fatally. -/
theorem claim_C6_counterexample :
    readNextSymbol ⟨List.replicate 162 0x77, List.replicate 17 0, List.replicate 162 0⟩
      (BitReader.init [0xAB]) =
      .ok (0x77, ⟨[0xAB], 1, 0, true⟩) := rfl

/-- Witness for C6 (amended) at the same concrete table and bitstream. -/
theorem claim_C6_witness :
    readNextSymbol ⟨List.replicate 162 0x77, List.replicate 17 0, List.replicate 162 0⟩
      (BitReader.init [0xAB]) =
      .ok ((⟨List.replicate 162 0x77, List.replicate 17 0, List.replicate 162 0⟩ :
        HuffmanTable).symbols.getD 0 0, ⟨[0xAB], 1, 0, true⟩) :=
  claim_C6_no_match_returns_symbol_zero _ _
    [1, 0, 1, 0, 1, 0, 1, 1, 0, 0, 0, 0, 0, 0, 0, 0] ⟨[0xAB], 1, 0, true⟩
    rfl (by decide)

theorem getD_set_ne {l : List ℤ} {i j : ℕ} {x : ℤ} (h : i ≠ j) :
    (l.set i x).getD j 0 = l.getD j 0 := by
  simp [List.getD_eq_getElem?_getD, List.getElem?_set_ne h]

theorem getD_set_self {l : List ℤ} {i : ℕ} {x : ℤ} (h : i < l.length) :
    (l.set i x).getD i 0 = x := by
  simp [List.getD_eq_getElem?_getD, List.getElem?_set_self h]

/-- Setting an index that currently holds 0 adjusts `countP` for a
predicate that rejects 0 by exactly the count of the new value. -/
theorem countP_set_of_zero {p : ℤ → Bool} (hp0 : p 0 = false) :
    ∀ (l : List ℤ) (i : ℕ) (x : ℤ), i < l.length → l.getD i 0 = 0 →
      (l.set i x).countP p = l.countP p + (if p x then 1 else 0) := by
  intro l
  induction l with
  | nil => intro i x h; simp at h
  | cons a t ih =>
    intro i x hlen hzero
    cases i with
    | zero =>
      simp only [List.getD_cons_zero] at hzero
      subst hzero
      simp [List.countP_cons, hp0]
    | succ i =>
      simp only [List.getD_cons_succ] at hzero
      have := ih i x (by simpa using hlen) hzero
      simp [List.set_cons_succ, List.countP_cons, this]
      omega

/-- The AC loop adds to the `Bits` counter exactly the number of stored
AC values that are neither 0 nor 1, provided every position at or after
the cursor still holds 0. -/
theorem decodeACLoop_count (ac : HuffmanTable) :
    ∀ (fuel : ℕ) (coeffs : List ℤ) (k : ℕ) (r : BitReader) (cnt : ℕ)
      (coeffs' : List ℤ) (r' : BitReader) (cnt' : ℕ),
    decodeACLoop ac fuel coeffs k r cnt = .ok (coeffs', r', cnt') →
    coeffs.length = 63 →
    (∀ j, k ≤ j → coeffs.getD j 0 = 0) →
    cnt' + coeffs.countP usableCoeff = cnt + coeffs'.countP usableCoeff := by
  intro fuel
  induction fuel with
  | zero =>
    intro coeffs k r cnt coeffs' r' cnt' h _ _
    simp only [decodeACLoop] at h
    cases h
    omega
  | succ fuel ih =>
    intro coeffs k r cnt coeffs' r' cnt' h hlen hsuf
    rw [decodeACLoop] at h
    by_cases hk : 63 ≤ k
    · rw [if_pos hk] at h
      cases h
      omega
    · rw [if_neg hk] at h
      cases hsym : readNextSymbol ac r with
      | error e => rw [hsym] at h; cases h
      | ok p =>
        obtain ⟨symbol, r1⟩ := p
        rw [hsym] at h
        dsimp only at h
        by_cases hs0 : symbol = 0x00
        · rw [if_pos hs0] at h
          cases h
          omega
        · rw [if_neg hs0] at h
          by_cases hsF : symbol = 0xF0
          · rw [if_pos hsF] at h
            exact ih coeffs (k + 16) r1 cnt coeffs' r' cnt' h hlen
              (fun j hj => hsuf j (by omega))
          · rw [if_neg hsF] at h
            cases hbits : r1.readNextBit (symbol &&& 0x0F) with
            | error e => rw [hbits] at h; cases h
            | ok q =>
              obtain ⟨u, r2⟩ := q
              rw [hbits] at h
              dsimp only at h
              set k' := k + ((symbol >>> 4) &&& 0x0F) with hk'
              by_cases hk63 : 63 ≤ k'
              · rw [if_pos hk63] at h; cases h
              · rw [if_neg hk63] at h
                set signed := signExtendCoeff u (symbol &&& 0x0F) with hsigned
                have hset := countP_set_of_zero (p := usableCoeff) (by decide)
                  coeffs k' signed (by omega) (hsuf k' (by omega))
                have hnext := ih (coeffs.set k' signed) (k' + 1) r2
                  (if signed ≠ 0 ∧ signed ≠ 1 then cnt + 1 else cnt)
                  coeffs' r' cnt' h (by simp [hlen])
                  (fun j hj => by
                    rw [getD_set_ne (by omega)]
                    exact hsuf j (by omega))
                rw [hset] at hnext
                by_cases hu : signed ≠ 0 ∧ signed ≠ 1
                · rw [if_pos hu] at hnext
                  have : usableCoeff signed = true := by
                    unfold usableCoeff
                    exact decide_eq_true hu
                  rw [if_pos this] at hnext
                  omega
                · rw [if_neg hu] at hnext
                  have : usableCoeff signed = false := by
                    unfold usableCoeff
                    exact decide_eq_false hu
                  rw [if_neg (by simp [this])] at hnext
                  omega

/-- C3 (amended): for a decoded block, the increase of the `Bits`
embedding-capacity counter equals the number of AC coefficients whose
value is neither 0 nor 1.  (A value of −1 *is* counted, so the counter
is not the number of coefficients with absolute value ≥ 2.) -/
theorem claim_C3_capacity_counter (ch ch' : Channel) (r r' : BitReader)
    (cnt cnt' : ℕ) (fdc : ℤ) (dcT acT : HuffmanTable)
    (hrun : decodeBlock ch r cnt fdc dcT acT = .ok (ch', r', cnt'))
    (hfresh : ch.acCoeff = List.replicate 63 0) :
    cnt' = cnt + ch'.acCoeff.countP usableCoeff := by
  unfold decodeBlock at hrun
  cases hsym : readNextSymbol dcT r with
  | error e => rw [hsym] at hrun; cases hrun
  | ok p =>
    obtain ⟨symbol, r1⟩ := p
    rw [hsym] at hrun
    dsimp only at hrun
    have hzero : ∀ j, 0 ≤ j → (ch.acCoeff).getD j 0 = 0 := by
      intro j _
      rw [hfresh, List.getD_eq_getElem?_getD, List.getElem?_replicate]
      split <;> rfl
    have hcnt0 : (ch.acCoeff).countP usableCoeff = 0 := by
      rw [hfresh]
      decide
    by_cases hs0 : symbol = 0x00
    · rw [if_pos hs0] at hrun
      dsimp only at hrun
      cases hac : decodeACLoop acT 64 ch.acCoeff 0 r1 cnt with
      | error e => rw [hac] at hrun; cases hrun
      | ok q =>
        obtain ⟨coeffs, r3, cntF⟩ := q
        rw [hac] at hrun
        dsimp only at hrun
        have hc := decodeACLoop_count acT 64 ch.acCoeff 0 r1 cnt coeffs r3 cntF hac
          (by rw [hfresh]; decide) hzero
        cases hrun
        simpa [hcnt0] using hc
    · rw [if_neg hs0] at hrun
      cases hbits : r1.readNextBit (symbol &&& 0x0F) with
      | error e => rw [hbits] at hrun; cases hrun
      | ok q =>
        obtain ⟨u, r2⟩ := q
        rw [hbits] at hrun
        dsimp only at hrun
        cases hac : decodeACLoop acT 64 ch.acCoeff 0 r2 cnt with
        | error e => rw [hac] at hrun; cases hrun
        | ok q2 =>
          obtain ⟨coeffs, r3, cntF⟩ := q2
          rw [hac] at hrun
          dsimp only at hrun
          have hc := decodeACLoop_count acT 64 ch.acCoeff 0 r2 cnt coeffs r3 cntF hac
            (by rw [hfresh]; decide) hzero
          cases hrun
          simpa [hcnt0] using hc

/-- Counterexample to C3 as stated: decoding the bitstream `0x10` with
the tiny tables stores the single AC coefficient −1 and increments the
capacity counter to 1, yet no AC coefficient has absolute value ≥ 2. -/
theorem claim_C3_counterexample :
    decodeBlock Channel.init (BitReader.init [0x10]) 0 0 dcTableTiny acTableTiny =
      .ok (⟨0, (List.replicate 63 (0 : ℤ)).set 0 (-1)⟩, ⟨[0x10], 0, 4, false⟩, 1)
    ∧ ((List.replicate 63 (0 : ℤ)).set 0 (-1)).countP (fun c => decide (2 ≤ c.natAbs)) = 0 := by
  constructor
  · rfl
  · decide

/-- Witness for C3 (amended) on the same concrete run: the counter goes
from 0 to 1 and exactly one stored AC value is neither 0 nor 1. -/
theorem claim_C3_witness :
    decodeBlock Channel.init (BitReader.init [0x10]) 0 0 dcTableTiny acTableTiny =
      .ok (⟨0, (List.replicate 63 (0 : ℤ)).set 0 (-1)⟩, ⟨[0x10], 0, 4, false⟩, 1)
    ∧ (1 : ℕ) = 0 + ((List.replicate 63 (0 : ℤ)).set 0 (-1)).countP usableCoeff :=
  ⟨rfl,
   claim_C3_capacity_counter Channel.init ⟨0, (List.replicate 63 (0 : ℤ)).set 0 (-1)⟩
     (BitReader.init [0x10]) ⟨[0x10], 0, 4, false⟩ 0 1 0 dcTableTiny acTableTiny rfl rfl⟩

/-- Each successful pass of the MCU loop appends exactly one MCU. -/
theorem decodeMCULoop_length (h : Header) :
    ∀ (n : ℕ) (acc : List MinimumCodedUnit) (r : BitReader) (cnt : ℕ)
      (mcus : List MinimumCodedUnit) (r' : BitReader) (cnt' : ℕ),
    decodeMCULoop h n acc r cnt = .ok (mcus, r', cnt') →
    mcus.length = acc.length + n := by
  intro n
  induction n with
  | zero =>
    intro acc r cnt mcus r' cnt' hrun
    simp only [decodeMCULoop] at hrun
    cases hrun
    omega
  | succ n ih =>
    intro acc r cnt mcus r' cnt' hrun
    rw [decodeMCULoop] at hrun
    cases hmcu : decodeMCU h MinimumCodedUnit.init r cnt
        (match acc.getLast? with
         | none => 0
         | some m => (m.chrominance.getD 1 default).dcCoeff) with
    | error e => rw [hmcu] at hrun; cases hrun
    | ok p =>
      obtain ⟨mcu, r1, cnt1⟩ := p
      rw [hmcu] at hrun
      dsimp only at hrun
      have := ih (acc ++ [mcu]) r1 cnt1 mcus r' cnt' hrun
      simp only [List.length_append, List.length_cons, List.length_nil] at this
      omega

/-- C9: when the entropy decoder succeeds, the number of MCUs it
produces is exactly `bWidth*bHeight / (vSamp*hSamp)` where
`bWidth = ceil(width/8)` (rounded up to even when the luminance
horizontal sampling factor is 2) and `bHeight = ceil(height/8)` (rounded
up to even when the vertical factor is 2) — the MCU-vector length is
fully determined by the image dimensions and the luma sampling factors. -/
theorem claim_C9_mcu_count (h : Header) (data : List ℕ)
    (mcus : List MinimumCodedUnit) (cnt : ℕ)
    (hrun : decodeBitstream h data = .ok (mcus, cnt)) :
    mcus.length =
      (if ((h.width + 7) / 8) % 2 = 1 ∧ (h.components.getD 0 default).horizontalSamplingFactor = 2
        then (h.width + 7) / 8 + 1 else (h.width + 7) / 8) *
      (if ((h.height + 7) / 8) % 2 = 1 ∧ (h.components.getD 0 default).verticalSamplingFactor = 2
        then (h.height + 7) / 8 + 1 else (h.height + 7) / 8) /
      ((h.components.getD 0 default).verticalSamplingFactor *
        (h.components.getD 0 default).horizontalSamplingFactor) := by
  unfold decodeBitstream at hrun
  cases hus : unstuffLoop data (data.length + 1) h.bitstreamIndex [] with
  | error e => rw [hus] at hrun; cases hrun
  | ok bytestream =>
    rw [hus] at hrun
    dsimp only at hrun
    cases hml : decodeMCULoop h
        ((if ((h.height + 7) / 8) % 2 = 1 ∧ (h.components.getD 0 default).verticalSamplingFactor = 2
            then (h.height + 7) / 8 + 1 else (h.height + 7) / 8) *
          (if ((h.width + 7) / 8) % 2 = 1 ∧ (h.components.getD 0 default).horizontalSamplingFactor = 2
            then (h.width + 7) / 8 + 1 else (h.width + 7) / 8) /
          ((h.components.getD 0 default).verticalSamplingFactor *
            (h.components.getD 0 default).horizontalSamplingFactor))
        [] (BitReader.init bytestream) 0 with
    | error e => rw [hml] at hrun; cases hrun
    | ok p =>
      obtain ⟨ms, rF, cntF⟩ := p
      rw [hml] at hrun
      dsimp only at hrun
      have hlen := decodeMCULoop_length h _ [] (BitReader.init bytestream) 0 ms rF cntF hml
      cases hrun
      simp only [List.length_nil, Nat.zero_add] at hlen
      rw [hlen, Nat.mul_comm]

/-- Witness for C9: decoding the single entropy byte `0x00` under the
tiny 1×1 grayscale header succeeds and yields exactly one MCU. -/
theorem claim_C9_witness :
    ∃ (mcus : List MinimumCodedUnit) (cnt : ℕ),
      decodeBitstream tinyHeader [0x00] = .ok (mcus, cnt) ∧
      mcus.length =
        (if ((tinyHeader.width + 7) / 8) % 2 = 1 ∧
            (tinyHeader.components.getD 0 default).horizontalSamplingFactor = 2
          then (tinyHeader.width + 7) / 8 + 1 else (tinyHeader.width + 7) / 8) *
        (if ((tinyHeader.height + 7) / 8) % 2 = 1 ∧
            (tinyHeader.components.getD 0 default).verticalSamplingFactor = 2
          then (tinyHeader.height + 7) / 8 + 1 else (tinyHeader.height + 7) / 8) /
        ((tinyHeader.components.getD 0 default).verticalSamplingFactor *
          (tinyHeader.components.getD 0 default).horizontalSamplingFactor) := by
  refine ⟨_, _, rfl, claim_C9_mcu_count tinyHeader [0x00] _ _ rfl⟩

theorem WFState.init_wf {hv : ℕ} (h : 0 < hv) : WFState hv WalkState.init :=
  ⟨fun _ => h, fun hc => absurd hc (by decide), by decide⟩

/-- One walker step preserves wellformedness and advances the linear
position by exactly one. -/
theorem stepState_wf_idx {hv : ℕ} (hv3 : ValidHV hv) {s : WalkState}
    (hwf : WFState hv s) :
    WFState hv (stepState hv s) ∧ stateIdx hv (stepState hv s) = stateIdx hv s + 1 := by
  obtain ⟨mcu, chNum, chType, coef⟩ := s
  obtain ⟨hL, hC, hcoef⟩ := hwf
  simp only at hL hC hcoef
  rcases hv3 with rfl | rfl | rfl <;> cases chType <;>
    [have hb : chNum < 2 := hC rfl;
     have hb : chNum < 1 := hL rfl;
     have hb : chNum < 2 := hC rfl;
     have hb : chNum < 2 := hL rfl;
     have hb : chNum < 2 := hC rfl;
     have hb : chNum < 4 := hL rfl] <;>
    simp only [stepState, stateIdx, WFState, mcuSpan] <;>
    split_ifs <;>
    simp_all <;>
    omega

theorem stateOfIdx_wf_idx {hv : ℕ} (hv3 : ValidHV hv) (i : ℕ) :
    WFState hv (stateOfIdx hv i) ∧ stateIdx hv (stateOfIdx hv i) = i := by
  rcases hv3 with rfl | rfl | rfl <;>
    (unfold stateOfIdx mcuSpan
     split_ifs with h
     · simp only [WFState, stateIdx, mcuSpan, eq_self_iff_true, if_true, if_false]
       refine ⟨⟨fun _ => by omega, fun hx => by simp at hx, by omega⟩, by omega⟩
     · simp only [WFState, stateIdx, mcuSpan, Bool.false_eq_true, if_true, if_false]
       refine ⟨⟨fun hx => by simp at hx, fun _ => by omega, by omega⟩, by omega⟩)

/-- A well-formed state is determined by its linear position. -/
theorem stateOfIdx_stateIdx {hv : ℕ} (hv3 : ValidHV hv) {s : WalkState}
    (hwf : WFState hv s) : stateOfIdx hv (stateIdx hv s) = s := by
  obtain ⟨mcu, chNum, chType, coef⟩ := s
  obtain ⟨hL, hC, hcoef⟩ := hwf
  simp only at hL hC hcoef
  cases chType with
  | false =>
    have hb : chNum < 2 := hC rfl
    rcases hv3 with rfl | rfl | rfl <;>
      (unfold stateOfIdx mcuSpan
       simp only [stateIdx, mcuSpan, Bool.false_eq_true, Bool.true_eq_false,
         if_true, if_false, eq_self_iff_true]
       split_ifs with h <;>
         simp only [WalkState.mk.injEq] <;>
         refine ⟨?_, ?_, ?_, ?_⟩ <;>
         first
           | rfl
           | trivial
           | omega)
  | true =>
    have hb : chNum < hv := hL rfl
    rcases hv3 with rfl | rfl | rfl <;>
      (unfold stateOfIdx mcuSpan
       simp only [stateIdx, mcuSpan, Bool.false_eq_true, Bool.true_eq_false,
         if_true, if_false, eq_self_iff_true]
       split_ifs with h <;>
         simp only [WalkState.mk.injEq] <;>
         refine ⟨?_, ?_, ?_, ?_⟩ <;>
         first
           | rfl
           | trivial
           | omega)

/-! ## Value-level facts about the embedding conversion -/

set_option maxRecDepth 4000 in
theorem lor_one_eq : ∀ u : ℕ, u < 256 → u ||| 1 = 2 * (u / 2) + 1 := by decide

set_option maxRecDepth 4000 in
theorem land_254_eq : ∀ u : ℕ, u < 256 → u &&& 254 = 2 * (u / 2) := by decide

theorem lsbOf_eq_emod (x : ℤ) : lsbOf x = ((x % 2).toNat) := by
  unfold lsbOf
  rw [Nat.and_one_is_mod]
  have h32 : (4294967296 : ℤ) = 2 ^ 32 := by norm_num
  have hx : 0 ≤ x % 4294967296 := Int.emod_nonneg x (by norm_num)
  have h2 : (x % 4294967296) % 2 = x % 2 := by
    apply Int.emod_emod_of_dvd
    norm_num
  omega

/-- All the facts about the numpy `uint8`/`int8` LSB rewrite needed for
C1 and C2, for coefficients in the `int8`-faithful range. -/
theorem injectNewVal_props (c : ℤ) (bit : ℕ) (h1 : -128 ≤ c) (h2 : c ≤ 127) :
    (c ≠ 0 → c ≠ 1 → injectNewVal c bit ≠ 0 ∧ injectNewVal c bit ≠ 1) ∧
    (-128 ≤ injectNewVal c bit ∧ injectNewVal c bit ≤ 127) ∧
    (injectNewVal c bit % 2 = (if bit ≠ 0 then 1 else 0)) ∧
    (c ≠ 1 → 0 < c → 0 < injectNewVal c bit) ∧
    (c < 0 → injectNewVal c bit < 0) ∧
    (c.natAbs ≤ (injectNewVal c bit).natAbs + 1 ∧
      (injectNewVal c bit).natAbs ≤ c.natAbs + 1) ∧
    ((injectNewVal c bit % 256) / 2 = (c % 256) / 2) := by
  unfold injectNewVal
  dsimp only
  have humod : (0 ≤ c ∧ c % 256 = c) ∨ (c < 0 ∧ c % 256 = c + 256) := by
    rcases le_or_lt 0 c with h | h
    · exact Or.inl ⟨h, Int.emod_eq_of_lt h (by omega)⟩
    · exact Or.inr ⟨h, emod_of_neg_range (by omega) (by omega)⟩
  have hunn : 0 ≤ c % 256 := Int.emod_nonneg c (by norm_num)
  have hub : c % 256 < 256 := Int.emod_lt_of_pos c (by norm_num)
  set u := (c % 256).toNat with hu
  have htn : ((u : ℤ)) = c % 256 := Int.toNat_of_nonneg hunn
  have hult : u < 256 := by omega
  by_cases hb : bit ≠ 0 <;>
    [simp only [if_pos hb, lor_one_eq _ hult];
     simp only [if_neg hb, land_254_eq _ hult]] <;>
    split_ifs with hlt <;>
    refine ⟨fun hc0 hc1 => ⟨?_, ?_⟩, ⟨?_, ?_⟩, ?_, fun hc1 hp => ?_, fun hn => ?_, ⟨?_, ?_⟩, ?_⟩ <;>
    rcases humod with ⟨hs, hm⟩ | ⟨hs, hm⟩ <;>
    omega

/-! ## Reading and writing coefficients through the walker -/

theorem getD_set_ne' {α : Type} {l : List α} {i j : ℕ} {x d : α} (h : i ≠ j) :
    (l.set i x).getD j d = l.getD j d := by
  simp [List.getD_eq_getElem?_getD, List.getElem?_set_ne h]

theorem getD_set_self' {α : Type} {l : List α} {i : ℕ} {x d : α} (h : i < l.length) :
    (l.set i x).getD i d = x := by
  simp [List.getD_eq_getElem?_getD, List.getElem?_set_self h]

theorem getD_mem_or {α : Type} (l : List α) (n : ℕ) (d : α) :
    l.getD n d = d ∨ l.getD n d ∈ l := by
  rcases Nat.lt_or_ge n l.length with h | h
  · right
    rw [List.getD_eq_getElem?_getD, List.getElem?_eq_getElem h]
    exact List.getElem_mem h
  · left
    rw [List.getD_eq_getElem?_getD, List.getElem?_eq_none (by omega)]
    rfl

theorem channelInit_ac_zero (coef : ℕ) : Channel.init.acCoeff.getD coef 0 = 0 := by
  rcases getD_mem_or Channel.init.acCoeff coef 0 with h | h
  · exact h
  · exact List.eq_of_mem_replicate h

theorem initMCU_lum (chNum : ℕ) :
    MinimumCodedUnit.init.luminance.getD chNum default = Channel.init := by
  rcases getD_mem_or MinimumCodedUnit.init.luminance chNum default with h | h
  · rw [h]; rfl
  · exact List.eq_of_mem_replicate h

theorem initMCU_chr (chNum : ℕ) :
    MinimumCodedUnit.init.chrominance.getD chNum default = Channel.init := by
  rcases getD_mem_or MinimumCodedUnit.init.chrominance chNum default with h | h
  · rw [h]; rfl
  · exact List.eq_of_mem_replicate h

theorem readCoeff_range {v : List MinimumCodedUnit} (hr : InRangeVec v)
    (s : WalkState) : -128 ≤ readCoeff v s ∧ readCoeff v s ≤ 127 := by
  unfold readCoeff
  have hzero : (-128 : ℤ) ≤ 0 ∧ (0 : ℤ) ≤ 127 := by norm_num
  rcases getD_mem_or v s.currMCU default with hm | hm
  · rw [hm]
    show -128 ≤ (if s.ChannelType then _ else _) ∧ _
    cases hct : s.ChannelType <;> simp only [if_true, if_false]
    · rw [show (default : MinimumCodedUnit) = MinimumCodedUnit.init from rfl,
        initMCU_chr, channelInit_ac_zero]
      exact hzero
    · rw [show (default : MinimumCodedUnit) = MinimumCodedUnit.init from rfl,
        initMCU_lum, channelInit_ac_zero]
      exact hzero
  · obtain ⟨hlum, hchr⟩ := hr _ hm
    cases hct : s.ChannelType <;> simp only [if_true, if_false]
    · rcases getD_mem_or (v.getD s.currMCU default).chrominance s.ChannelNumber default with hch | hch
      · rw [hch, show (default : Channel) = Channel.init from rfl, channelInit_ac_zero]
        exact hzero
      · rcases getD_mem_or ((v.getD s.currMCU default).chrominance.getD s.ChannelNumber default).acCoeff s.Coefficient 0 with hx | hx
        · rw [hx]; exact hzero
        · exact hchr _ hch _ hx
    · rcases getD_mem_or (v.getD s.currMCU default).luminance s.ChannelNumber default with hch | hch
      · rw [hch, show (default : Channel) = Channel.init from rfl, channelInit_ac_zero]
        exact hzero
      · rcases getD_mem_or ((v.getD s.currMCU default).luminance.getD s.ChannelNumber default).acCoeff s.Coefficient 0 with hx | hx
        · rw [hx]; exact hzero
        · exact hlum _ hch _ hx

theorem writeCoeff_length (v : List MinimumCodedUnit) (t : CoeffTuple) (x : ℤ) :
    (writeCoeff v t x).length = v.length := by
  unfold writeCoeff
  simp

theorem getD_mem_of_lt {α : Type} (l : List α) (i : ℕ) (d : α) (h : i < l.length) :
    l.getD i d ∈ l := by
  rw [List.getD_eq_getElem?_getD, List.getElem?_eq_getElem h, Option.getD_some]
  exact List.getElem_mem h

/-- Writing through the locator built at `s` reads back the written
value at `s`. -/
theorem writeCoeff_read_self {hv : ℕ} {v : List MinimumCodedUnit} {s : WalkState}
    (hwf : WFVec v) (hs : WFState hv s) (hhv : hv ≤ 4)
    (hmcu : s.currMCU < v.length) (x : ℤ) :
    readCoeff (writeCoeff v (tupOfState v s) x) s = x := by
  obtain ⟨hL, hC, hcoef⟩ := hs
  have hmem : v.getD s.currMCU default ∈ v := getD_mem_of_lt _ _ _ hmcu
  obtain ⟨hl4, hc2, hlac, hcac⟩ := hwf _ hmem
  unfold readCoeff writeCoeff tupOfState
  dsimp only
  cases hct : s.ChannelType <;>
    simp only [Bool.false_eq_true, Bool.true_eq_false, if_true, if_false]
  · rw [getD_set_self' (by simpa using hmcu)]
    dsimp only
    rw [getD_set_self' (by rw [hc2]; exact hC hct)]
    unfold setChannelAC
    dsimp only
    rw [getD_set_self']
    rw [hcac _ (getD_mem_of_lt _ _ _ (by rw [hc2]; exact hC hct))]
    exact hcoef
  · rw [getD_set_self' (by simpa using hmcu)]
    dsimp only
    rw [getD_set_self' (by rw [hl4]; have := hL hct; omega)]
    unfold setChannelAC
    dsimp only
    rw [getD_set_self']
    rw [hlac _ (getD_mem_of_lt _ _ _ (by rw [hl4]; have := hL hct; omega))]
    exact hcoef

/-- Writing through the locator built at `s` leaves the coefficient at
any other walker state unchanged. -/
theorem writeCoeff_read_ne {hv : ℕ} {v : List MinimumCodedUnit} {s s' : WalkState}
    (hwf : WFVec v) (hs : WFState hv s) (hhv : hv ≤ 4)
    (hmcu : s.currMCU < v.length) (hne : s' ≠ s) (x : ℤ) :
    readCoeff (writeCoeff v (tupOfState v s) x) s' = readCoeff v s' := by
  obtain ⟨hL, hC, hcoef⟩ := hs
  have hmem : v.getD s.currMCU default ∈ v := getD_mem_of_lt _ _ _ hmcu
  obtain ⟨hl4, hc2, hlac, hcac⟩ := hwf _ hmem
  obtain ⟨mcu, cn, ct, co⟩ := s
  obtain ⟨mcu', cn', ct', co'⟩ := s'
  simp only at hL hC hcoef hmcu hl4 hc2 hlac hcac hmem
  simp only [ne_eq, WalkState.mk.injEq, not_and] at hne
  unfold readCoeff writeCoeff tupOfState
  dsimp only
  by_cases hm : mcu' = mcu
  · subst hm
    rw [getD_set_self' (by simpa using hmcu)]
    cases ct with
    | false =>
      cases ct' with
      | true =>
        simp only [Bool.false_eq_true, Bool.true_eq_false, if_true, if_false]
      | false =>
        simp only [Bool.false_eq_true, Bool.true_eq_false, if_true, if_false]
        by_cases hch : cn' = cn
        · subst hch
          rw [getD_set_self' (by rw [hc2]; exact hC rfl)]
          unfold setChannelAC
          dsimp only
          rw [getD_set_ne' (fun h => hne rfl rfl rfl h.symm)]
        · rw [getD_set_ne' (fun h => hch h.symm)]
    | true =>
      cases ct' with
      | false =>
        simp only [Bool.false_eq_true, Bool.true_eq_false, if_true, if_false]
      | true =>
        simp only [if_true, if_false]
        by_cases hch : cn' = cn
        · subst hch
          rw [getD_set_self' (by rw [hl4]; have := hL rfl; omega)]
          unfold setChannelAC
          dsimp only
          rw [getD_set_ne' (fun h => hne rfl rfl rfl h.symm)]
        · rw [getD_set_ne' (fun h => hch h.symm)]
  · rw [getD_set_ne' (fun h => hm h.symm)]

theorem wfMCU_default :
    (default : MinimumCodedUnit).luminance.length = 4 ∧
    (default : MinimumCodedUnit).chrominance.length = 2 ∧
    (∀ ch ∈ (default : MinimumCodedUnit).luminance, ch.acCoeff.length = 63) ∧
    (∀ ch ∈ (default : MinimumCodedUnit).chrominance, ch.acCoeff.length = 63) := by
  refine ⟨rfl, rfl, fun ch hch => ?_, fun ch hch => ?_⟩ <;>
    rw [List.eq_of_mem_replicate hch] <;> rfl

theorem inRangeMCU_default :
    (∀ ch ∈ (default : MinimumCodedUnit).luminance, ∀ x ∈ ch.acCoeff, -128 ≤ x ∧ x ≤ 127) ∧
    (∀ ch ∈ (default : MinimumCodedUnit).chrominance, ∀ x ∈ ch.acCoeff, -128 ≤ x ∧ x ≤ 127) := by
  constructor <;> intro ch hch x hx <;>
    rw [List.eq_of_mem_replicate hch] at hx <;>
    rw [List.eq_of_mem_replicate hx] <;> norm_num

/-- `writeCoeff` preserves the structural wellformedness of the MCU
vector. -/
theorem writeCoeff_WFVec {v : List MinimumCodedUnit} (hwf : WFVec v)
    (t : CoeffTuple) (x : ℤ) : WFVec (writeCoeff v t x) := by
  intro m hm
  unfold writeCoeff at hm
  dsimp only at hm
  rcases List.mem_or_eq_of_mem_set hm with hm' | rfl
  · exact hwf _ hm'
  · have hP : (v.getD t.mcu default).luminance.length = 4 ∧
        (v.getD t.mcu default).chrominance.length = 2 ∧
        (∀ ch ∈ (v.getD t.mcu default).luminance, ch.acCoeff.length = 63) ∧
        (∀ ch ∈ (v.getD t.mcu default).chrominance, ch.acCoeff.length = 63) := by
      rcases getD_mem_or v t.mcu default with hd | hd
      · rw [hd]; exact wfMCU_default
      · exact hwf _ hd
    obtain ⟨hl4, hc2, hlac, hcac⟩ := hP
    cases hct : t.ch <;>
      simp only [hct, Bool.false_eq_true, Bool.true_eq_false, if_true, if_false] <;>
      refine ⟨by simpa using hl4, by simpa using hc2, fun ch hch => ?_, fun ch hch => ?_⟩
    · exact hlac _ hch
    · rcases List.mem_or_eq_of_mem_set hch with hch' | rfl
      · exact hcac _ hch'
      · unfold setChannelAC
        dsimp only
        rw [List.length_set]
        rcases getD_mem_or (v.getD t.mcu default).chrominance t.channel default with hd | hd
        · rw [hd]; rfl
        · exact hcac _ hd
    · rcases List.mem_or_eq_of_mem_set hch with hch' | rfl
      · exact hlac _ hch'
      · unfold setChannelAC
        dsimp only
        rw [List.length_set]
        rcases getD_mem_or (v.getD t.mcu default).luminance t.channel default with hd | hd
        · rw [hd]; rfl
        · exact hlac _ hd
    · exact hcac _ hch

/-- `writeCoeff` with an in-range value preserves the coefficient range
invariant. -/
theorem writeCoeff_InRangeVec {v : List MinimumCodedUnit} (hr : InRangeVec v)
    (t : CoeffTuple) {x : ℤ} (hx : -128 ≤ x ∧ x ≤ 127) :
    InRangeVec (writeCoeff v t x) := by
  intro m hm
  unfold writeCoeff at hm
  dsimp only at hm
  rcases List.mem_or_eq_of_mem_set hm with hm' | rfl
  · exact hr _ hm'
  · have hP : (∀ ch ∈ (v.getD t.mcu default).luminance, ∀ y ∈ ch.acCoeff,
        -128 ≤ y ∧ y ≤ 127) ∧
        (∀ ch ∈ (v.getD t.mcu default).chrominance, ∀ y ∈ ch.acCoeff,
        -128 ≤ y ∧ y ≤ 127) := by
      rcases getD_mem_or v t.mcu default with hd | hd
      · rw [hd]; exact inRangeMCU_default
      · exact hr _ hd
    obtain ⟨hlum, hchr⟩ := hP
    have hbase : ∀ y ∈ ((if t.ch then (v.getD t.mcu default).luminance
        else (v.getD t.mcu default).chrominance).getD t.channel default).acCoeff,
        -128 ≤ y ∧ y ≤ 127 := by
      cases hct : t.ch <;>
        simp only [Bool.false_eq_true, Bool.true_eq_false, if_true, if_false]
      · rcases getD_mem_or (v.getD t.mcu default).chrominance t.channel default with hd | hd
        · rw [hd]
          intro y hy
          rw [List.eq_of_mem_replicate hy]
          norm_num
        · exact hchr _ hd
      · rcases getD_mem_or (v.getD t.mcu default).luminance t.channel default with hd | hd
        · rw [hd]
          intro y hy
          rw [List.eq_of_mem_replicate hy]
          norm_num
        · exact hlum _ hd
    cases hct : t.ch <;>
      simp only [hct, Bool.false_eq_true, Bool.true_eq_false, if_true, if_false] at hbase ⊢ <;>
      refine ⟨fun ch hch y hy => ?_, fun ch hch y hy => ?_⟩
    · exact hlum _ hch _ hy
    · rcases List.mem_or_eq_of_mem_set hch with hch' | rfl
      · exact hchr _ hch' _ hy
      · unfold setChannelAC at hy
        dsimp only at hy
        rcases List.mem_or_eq_of_mem_set hy with hy' | rfl
        · exact hbase _ hy'
        · exact hx
    · rcases List.mem_or_eq_of_mem_set hch with hch' | rfl
      · exact hlum _ hch' _ hy
      · unfold setChannelAC at hy
        dsimp only at hy
        rcases List.mem_or_eq_of_mem_set hy with hy' | rfl
        · exact hbase _ hy'
        · exact hx
    · exact hchr _ hch _ hy

theorem stateIdx_bounds {hv : ℕ} (hv3 : ValidHV hv) {s : WalkState}
    (hwf : WFState hv s) :
    s.currMCU * mcuSpan hv ≤ stateIdx hv s ∧
      stateIdx hv s < (s.currMCU + 1) * mcuSpan hv := by
  obtain ⟨mcu, cn, ct, co⟩ := s
  obtain ⟨hL, hC, hcoef⟩ := hwf
  simp only at hL hC hcoef
  rcases hv3 with rfl | rfl | rfl <;> cases ct <;>
    [have hb : cn < 2 := hC rfl;
     have hb : cn < 1 := hL rfl;
     have hb : cn < 2 := hC rfl;
     have hb : cn < 2 := hL rfl;
     have hb : cn < 2 := hC rfl;
     have hb : cn < 4 := hL rfl] <;>
    simp only [stateIdx, mcuSpan] <;>
    split_ifs with h <;>
    first
      | exact absurd h (by decide)
      | omega

/-- `findAvailableCoeff` stops exactly at the first usable linear
position at or after the current state. -/
theorem findAvailableCoeff_spec {hv : ℕ} (hv3 : ValidHV hv)
    (v : List MinimumCodedUnit) :
    ∀ fuel s j, WFState hv s →
    stateIdx hv s ≤ j → j < v.length * mcuSpan hv →
    usableCoeff (readIdx hv v j) = true →
    (∀ i, stateIdx hv s ≤ i → i < j → usableCoeff (readIdx hv v i) = false) →
    j - stateIdx hv s < fuel →
    findAvailableCoeff hv v fuel s =
      .ok (tupOfState v (stateOfIdx hv j), stepState hv (stateOfIdx hv j)) := by
  intro fuel
  induction fuel with
  | zero => intro s j _ h1 _ _ _ hf; omega
  | succ f ih =>
    intro s j hwf hj hjlt husable hmin hfuel
    have hspan : 0 < mcuSpan hv := by
      rcases hv3 with rfl | rfl | rfl <;> decide
    have hbounds := stateIdx_bounds hv3 hwf
    have hcur : s.currMCU < v.length := by
      by_contra hcon
      push_neg at hcon
      have := mul_le_mul_right' hcon (mcuSpan hv)
      omega
    unfold findAvailableCoeff findCoeff
    rw [if_neg (by omega)]
    dsimp only
    by_cases heq : stateIdx hv s = j
    · have hs : stateOfIdx hv j = s := heq ▸ stateOfIdx_stateIdx hv3 hwf
      rw [hs]
      have h2 : readCoeff v s = readIdx hv v j := by rw [readIdx, hs]
      have husable' : readCoeff v s ≠ 0 ∧ readCoeff v s ≠ 1 := by
        unfold usableCoeff at husable
        rw [h2]
        exact of_decide_eq_true husable
      rw [if_neg (by rintro (h | h); exacts [husable'.1 h, husable'.2 h])]
      rfl
    · have hlt : stateIdx hv s < j := lt_of_le_of_ne hj heq
      have hnot := hmin (stateIdx hv s) le_rfl hlt
      have hsid : stateOfIdx hv (stateIdx hv s) = s := stateOfIdx_stateIdx hv3 hwf
      have hval : readCoeff v s = readIdx hv v (stateIdx hv s) := by
        rw [readIdx, hsid]
      have hor : readCoeff v s = 0 ∨ readCoeff v s = 1 := by
        by_contra hcon
        push_neg at hcon
        unfold usableCoeff at hnot
        exact of_decide_eq_false hnot (hval ▸ hcon)
      rw [if_pos hor]
      obtain ⟨hwf', hstep⟩ := stepState_wf_idx hv3 hwf
      exact ih (stepState hv s) j hwf' (by omega) hjlt husable
        (fun i h1 h2 => hmin i (by omega) h2) (by omega)

/-- Mirror of `findAvailableCoeff_spec` for the extraction-side walker. -/
theorem findAvailableCoeffExtract_spec {hv : ℕ} (hv3 : ValidHV hv)
    (v : List MinimumCodedUnit) :
    ∀ fuel s j, WFState hv s →
    stateIdx hv s ≤ j → j < v.length * mcuSpan hv →
    usableCoeff (readIdx hv v j) = true →
    (∀ i, stateIdx hv s ≤ i → i < j → usableCoeff (readIdx hv v i) = false) →
    j - stateIdx hv s < fuel →
    findAvailableCoeffExtract hv v fuel s =
      .ok (readIdx hv v j, stepState hv (stateOfIdx hv j)) := by
  intro fuel
  induction fuel with
  | zero => intro s j _ h1 _ _ _ hf; omega
  | succ f ih =>
    intro s j hwf hj hjlt husable hmin hfuel
    have hspan : 0 < mcuSpan hv := by
      rcases hv3 with rfl | rfl | rfl <;> decide
    have hbounds := stateIdx_bounds hv3 hwf
    have hcur : s.currMCU < v.length := by
      by_contra hcon
      push_neg at hcon
      have := mul_le_mul_right' hcon (mcuSpan hv)
      omega
    unfold findAvailableCoeffExtract findCoeffExtract
    rw [if_neg (by omega)]
    dsimp only
    by_cases heq : stateIdx hv s = j
    · have hs : stateOfIdx hv j = s := heq ▸ stateOfIdx_stateIdx hv3 hwf
      rw [hs]
      have h2 : readCoeff v s = readIdx hv v j := by rw [readIdx, hs]
      have husable' : readCoeff v s ≠ 0 ∧ readCoeff v s ≠ 1 := by
        unfold usableCoeff at husable
        rw [h2]
        exact of_decide_eq_true husable
      rw [if_neg (by rintro (h | h); exacts [husable'.1 h, husable'.2 h])]
      rw [h2]
    · have hlt : stateIdx hv s < j := lt_of_le_of_ne hj heq
      have hnot := hmin (stateIdx hv s) le_rfl hlt
      have hsid : stateOfIdx hv (stateIdx hv s) = s := stateOfIdx_stateIdx hv3 hwf
      have hval : readCoeff v s = readIdx hv v (stateIdx hv s) := by
        rw [readIdx, hsid]
      have hor : readCoeff v s = 0 ∨ readCoeff v s = 1 := by
        by_contra hcon
        push_neg at hcon
        unfold usableCoeff at hnot
        exact of_decide_eq_false hnot (hval ▸ hcon)
      rw [if_pos hor]
      obtain ⟨hwf', hstep⟩ := stepState_wf_idx hv3 hwf
      exact ih (stepState hv s) j hwf' (by omega) hjlt husable
        (fun i h1 h2 => hmin i (by omega) h2) (by omega)

theorem usableFromAux_fuel {hv : ℕ} {v : List MinimumCodedUnit} :
    ∀ f g i, v.length * mcuSpan hv - i ≤ f → v.length * mcuSpan hv - i ≤ g →
    usableFromAux hv v f i = usableFromAux hv v g i := by
  intro f
  induction f with
  | zero =>
    intro g i hf hg
    cases g with
    | zero => rfl
    | succ g =>
      rw [usableFromAux, usableFromAux, if_neg (by omega)]
  | succ f ih =>
    intro g i hf hg
    cases g with
    | zero =>
      rw [usableFromAux, usableFromAux, if_neg (by omega)]
    | succ g =>
      rw [usableFromAux, usableFromAux]
      by_cases h : i < v.length * mcuSpan hv
      · rw [if_pos h, if_pos h, ih g (i + 1) (by omega) (by omega)]
      · rw [if_neg h, if_neg h]

theorem usableFrom_ge {hv : ℕ} {v : List MinimumCodedUnit} {i : ℕ}
    (h : v.length * mcuSpan hv ≤ i) : usableFrom hv v i = 0 := by
  unfold usableFrom
  rw [Nat.sub_eq_zero_of_le h]
  rfl

theorem usableFrom_lt {hv : ℕ} {v : List MinimumCodedUnit} {i : ℕ}
    (h : i < v.length * mcuSpan hv) :
    usableFrom hv v i =
      (if usableCoeff (readIdx hv v i) then 1 else 0) + usableFrom hv v (i + 1) := by
  unfold usableFrom
  have h1 : v.length * mcuSpan hv - i = (v.length * mcuSpan hv - (i + 1)) + 1 := by omega
  rw [h1, usableFromAux, if_pos h]

/-- `usableFrom` only looks at positions `≥ i`. -/
theorem usableFrom_congr {hv : ℕ} {v v' : List MinimumCodedUnit}
    (hlen : v'.length = v.length) :
    ∀ i, (∀ k, i ≤ k → k < v.length * mcuSpan hv → readIdx hv v' k = readIdx hv v k) →
    usableFrom hv v' i = usableFrom hv v i := by
  have hmain : ∀ m i, v.length * mcuSpan hv - i ≤ m →
      (∀ k, i ≤ k → k < v.length * mcuSpan hv → readIdx hv v' k = readIdx hv v k) →
      usableFrom hv v' i = usableFrom hv v i := by
    intro m
    induction m with
    | zero =>
      intro i hm _
      rw [usableFrom_ge (by rw [hlen]; omega), usableFrom_ge (by omega)]
    | succ m ih =>
      intro i hm hagree
      by_cases h : i < v.length * mcuSpan hv
      · rw [usableFrom_lt (by rw [hlen]; exact h), usableFrom_lt h,
          hagree i le_rfl h, ih (i + 1) (by omega) (fun k h1 h2 => hagree k (by omega) h2)]
      · rw [usableFrom_ge (by rw [hlen]; omega), usableFrom_ge (by omega)]
  intro i hagree
  exact hmain (v.length * mcuSpan hv - i) i le_rfl hagree

/-- A positive usable count yields a first usable position. -/
theorem usableFrom_first {hv : ℕ} {v : List MinimumCodedUnit} :
    ∀ i, 0 < usableFrom hv v i →
    ∃ j, i ≤ j ∧ j < v.length * mcuSpan hv ∧ usableCoeff (readIdx hv v j) = true ∧
      (∀ k, i ≤ k → k < j → usableCoeff (readIdx hv v k) = false) ∧
      usableFrom hv v (j + 1) + 1 = usableFrom hv v i := by
  have hmain : ∀ m i, v.length * mcuSpan hv - i ≤ m → 0 < usableFrom hv v i →
      ∃ j, i ≤ j ∧ j < v.length * mcuSpan hv ∧ usableCoeff (readIdx hv v j) = true ∧
      (∀ k, i ≤ k → k < j → usableCoeff (readIdx hv v k) = false) ∧
      usableFrom hv v (j + 1) + 1 = usableFrom hv v i := by
    intro m
    induction m with
    | zero =>
      intro i hm hpos
      rw [usableFrom_ge (by omega)] at hpos
      omega
    | succ m ih =>
      intro i hm hpos
      by_cases h : i < v.length * mcuSpan hv
      · by_cases hu : usableCoeff (readIdx hv v i) = true
        · refine ⟨i, le_rfl, h, hu, fun k h1 h2 => absurd h2 (by omega), ?_⟩
          rw [usableFrom_lt h, if_pos hu]
          omega
        · rw [usableFrom_lt h, if_neg hu] at hpos
          obtain ⟨j, hj1, hj2, hj3, hj4, hj5⟩ := ih (i + 1) (by omega) (by omega)
          refine ⟨j, by omega, hj2, hj3, fun k h1 h2 => ?_, ?_⟩
          · rcases Nat.eq_or_lt_of_le h1 with rfl | hlt
            · simpa using hu
            · exact hj4 k (by omega) h2
          · rw [usableFrom_lt h, if_neg hu]
            omega
      · rw [usableFrom_ge (by omega)] at hpos
        omega
  intro i hpos
  exact hmain (v.length * mcuSpan hv - i) i le_rfl hpos

theorem stateOfIdx_currMCU (hv i : ℕ) : (stateOfIdx hv i).currMCU = i / mcuSpan hv := by
  unfold stateOfIdx
  split_ifs <;> rfl

theorem stateOfIdx_mcu_lt {hv : ℕ} {v : List MinimumCodedUnit} {j : ℕ}
    (hspan : 0 < mcuSpan hv) (hj : j < v.length * mcuSpan hv) :
    (stateOfIdx hv j).currMCU < v.length := by
  rw [stateOfIdx_currMCU]
  exact (Nat.div_lt_iff_lt_mul hspan).mpr hj

theorem extractBits_length {hv : ℕ} {v : List MinimumCodedUnit} {fuel : ℕ} :
    ∀ {n s bs sE}, extractBits hv v fuel n s = .ok (bs, sE) → bs.length = n := by
  intro n
  induction n with
  | zero =>
    intro s bs sE h
    rw [extractBits] at h
    cases h
    rfl
  | succ n ih =>
    intro s bs sE h
    rw [extractBits] at h
    cases hf : findAvailableCoeffExtract hv v fuel s with
    | error e => rw [hf] at h; cases h
    | ok p =>
      obtain ⟨c, s'⟩ := p
      rw [hf] at h
      dsimp only at h
      cases hrest : extractBits hv v fuel n s' with
      | error e => rw [hrest] at h; cases h
      | ok q =>
        obtain ⟨bs', sE'⟩ := q
        rw [hrest] at h
        dsimp only at h
        cases h
        simp [ih hrest]

/-- Splitting a run of `extractBits` into two consecutive runs. -/
theorem extractBits_split {hv : ℕ} {v : List MinimumCodedUnit} {fuel : ℕ} :
    ∀ m k s bs sE, extractBits hv v fuel (m + k) s = .ok (bs, sE) →
    ∃ s1, extractBits hv v fuel m s = .ok (bs.take m, s1) ∧
      extractBits hv v fuel k s1 = .ok (bs.drop m, sE) := by
  intro m
  induction m with
  | zero =>
    intro k s bs sE h
    refine ⟨s, rfl, ?_⟩
    simpa using h
  | succ m ih =>
    intro k s bs sE h
    rw [show m + 1 + k = (m + k) + 1 by omega, extractBits] at h
    cases hf : findAvailableCoeffExtract hv v fuel s with
    | error e => rw [hf] at h; cases h
    | ok p =>
      obtain ⟨c, s'⟩ := p
      rw [hf] at h
      dsimp only at h
      cases hrest : extractBits hv v fuel (m + k) s' with
      | error e => rw [hrest] at h; cases h
      | ok q =>
        obtain ⟨bs', sE'⟩ := q
        rw [hrest] at h
        dsimp only at h
        cases h
        obtain ⟨s1, h1, h2⟩ := ih k s' bs' sE hrest
        refine ⟨s1, ?_, ?_⟩
        · rw [extractBits, hf]
          dsimp only
          rw [h1]
          dsimp only
          rw [List.take_succ_cons]
        · simpa using h2

/-- `extractSizeLoop` is `extractBits` post-processed by the shift-or
fold. -/
theorem extractSizeLoop_eq {hv : ℕ} {v : List MinimumCodedUnit} {fuel : ℕ} :
    ∀ k size s, extractSizeLoop hv v fuel k size s =
      (match extractBits hv v fuel k s with
       | .error e => .error e
       | .ok (bs, s') =>
         .ok (bs.foldl (fun a b => (a <<< 1) ||| b) size, s')) := by
  intro k
  induction k with
  | zero => intro size s; rfl
  | succ k ih =>
    intro size s
    rw [extractSizeLoop, extractBits]
    cases hf : findAvailableCoeffExtract hv v fuel s with
    | error e => rfl
    | ok p =>
      obtain ⟨c, s'⟩ := p
      dsimp only
      rw [ih]
      cases hrest : extractBits hv v fuel k s' with
      | error e => rfl
      | ok q => rfl

/-- `extractDataLoop` is `extractBits` post-processed by the packing
fold. -/
theorem extractDataLoop_eq {hv : ℕ} {v : List MinimumCodedUnit} {fuel : ℕ} :
    ∀ k i byte acc s, extractDataLoop hv v fuel k i byte acc s =
      (match extractBits hv v fuel k s with
       | .error e => .error e
       | .ok (bs, s') => .ok (packBitsFrom i byte acc bs, s')) := by
  intro k
  induction k with
  | zero => intro i byte acc s; rfl
  | succ k ih =>
    intro i byte acc s
    rw [extractDataLoop, extractBits]
    cases hf : findAvailableCoeffExtract hv v fuel s with
    | error e => rfl
    | ok p =>
      obtain ⟨c, s'⟩ := p
      dsimp only
      cases hrest : extractBits hv v fuel k s' with
      | error e =>
        by_cases h8 : i % 8 = 0
        · rw [if_pos h8, ih, hrest]
        · rw [if_neg h8, ih, hrest]
      | ok q =>
        obtain ⟨bs, sE⟩ := q
        by_cases h8 : i % 8 = 0
        · rw [if_pos h8, ih, hrest]
          dsimp only
          simp only [packBitsFrom]
          rw [if_pos h8]
        · rw [if_neg h8, ih, hrest]
          dsimp only
          simp only [packBitsFrom]
          rw [if_neg h8]

/-- A successful single-bit read yields a bit. -/
theorem readNextBit_one_le {r r' : BitReader} {b : ℕ}
    (h : r.readNextBit 1 = .ok (b, r')) : b ≤ 1 := by
  unfold BitReader.readNextBit BitReader.readLoop BitReader.readStep at h
  by_cases hflag : r.read_
  · rw [if_pos hflag] at h
    dsimp only at h
    cases h
    omega
  · rw [if_neg hflag] at h
    cases hget : r.data_.get? r.currByte_ with
    | none => rw [hget] at h; cases h
    | some x =>
      rw [hget] at h
      dsimp only [BitReader.readLoop] at h
      cases h
      have : (x >>> (7 - r.currBit_)) &&& 1 ≤ 1 := by
        rw [Nat.and_one_is_mod]
        omega
      simp only [Nat.zero_shiftLeft, Nat.zero_or]
      omega

theorem readBitsFrom_le_one {n : ℕ} :
    ∀ {r : BitReader} {bits : List ℕ} {rE : BitReader},
    readBitsFrom r n = .ok (bits, rE) → ∀ b ∈ bits, b ≤ 1 := by
  induction n with
  | zero =>
    intro r bits rE h
    rw [readBitsFrom] at h
    cases h
    intro b hb
    cases hb
  | succ n ih =>
    intro r bits rE h
    rw [readBitsFrom] at h
    cases h1 : r.readNextBit 1 with
    | error e => rw [h1] at h; cases h
    | ok p =>
      obtain ⟨b0, r'⟩ := p
      rw [h1] at h
      dsimp only at h
      cases hrest : readBitsFrom r' n with
      | error e => rw [hrest] at h; cases h
      | ok q =>
        obtain ⟨bs, rEnd⟩ := q
        rw [hrest] at h
        dsimp only at h
        cases h
        intro b hb
        rcases List.mem_cons.mp hb with rfl | hb'
        · exact readNextBit_one_le h1
        · exact ih hrest b hb'

/-- Core JSteg round-trip simulation: embedding `n` bits starting at a
well-formed walker state succeeds given enough usable coefficients, the
write set stays at positions at or after the start state, and reading the
walk back on the final vector returns exactly the embedded bits. -/
theorem injectLoop_sync {hv : ℕ} (hv3 : ValidHV hv) (hhv : hv ≤ 4) :
    ∀ n (v : List MinimumCodedUnit) (s : WalkState) (r : BitReader)
      (bits : List ℕ) (rE : BitReader),
    WFVec v → InRangeVec v → WFState hv s →
    readBitsFrom r n = .ok (bits, rE) →
    n ≤ usableFrom hv v (stateIdx hv s) →
    ∃ v', injectLoop hv (walkFuel hv v) v s r n = .ok v' ∧
      v'.length = v.length ∧ WFVec v' ∧ InRangeVec v' ∧
      (∀ i, i < stateIdx hv s → readIdx hv v' i = readIdx hv v i) ∧
      (∃ sE, extractBits hv v' (walkFuel hv v') n s = .ok (bits, sE)) := by
  intro n
  induction n with
  | zero =>
    intro v s r bits rE hwf hr hs hbits hcap
    rw [readBitsFrom] at hbits
    cases hbits
    exact ⟨v, rfl, rfl, hwf, hr, fun i _ => rfl, ⟨s, rfl⟩⟩
  | succ n ih =>
    intro v s r bits rE hwf hr hs hbits hcap
    have hpos : 0 < usableFrom hv v (stateIdx hv s) := by omega
    obtain ⟨j, hj1, hj2, hj3, hj4, hj5⟩ := usableFrom_first (stateIdx hv s) hpos
    have hspan : 0 < mcuSpan hv := by rcases hv3 with rfl | rfl | rfl <;> decide
    rw [readBitsFrom] at hbits
    cases h1 : r.readNextBit 1 with
    | error e => rw [h1] at hbits; cases hbits
    | ok p =>
      obtain ⟨b, r'⟩ := p
      rw [h1] at hbits
      dsimp only at hbits
      cases hrest : readBitsFrom r' n with
      | error e => rw [hrest] at hbits; cases hbits
      | ok q =>
        obtain ⟨bs, rEnd⟩ := q
        rw [hrest] at hbits
        dsimp only at hbits
        cases hbits
        have hble : b ≤ 1 := readNextBit_one_le h1
        have hfa := findAvailableCoeff_spec hv3 v (walkFuel hv v) s j hs hj1 hj2
          hj3 hj4
          (by unfold walkFuel; rw [show (hv + 2) * 63 = mcuSpan hv from rfl]; omega)
        set t := stateOfIdx hv j with ht
        obtain ⟨htwf, htidx⟩ := stateOfIdx_wf_idx hv3 j
        have htmcu : t.currMCU < v.length := stateOfIdx_mcu_lt hspan hj2
        have hcrange := readCoeff_range hr t
        have hprops := injectNewVal_props (readIdx hv v j) b hcrange.1 hcrange.2
        have husej : readIdx hv v j ≠ 0 ∧ readIdx hv v j ≠ 1 := by
          unfold usableCoeff at hj3
          exact of_decide_eq_true hj3
        set w := injectNewVal (readIdx hv v j) b with hw
        have hwusable : usableCoeff w = true := by
          unfold usableCoeff
          exact decide_eq_true (hprops.1 husej.1 husej.2)
        set v1 := writeCoeff v (tupOfState v t) w with hv1
        have hlen1 : v1.length = v.length := writeCoeff_length v _ w
        have hwf1 : WFVec v1 := writeCoeff_WFVec hwf _ _
        have hr1 : InRangeVec v1 :=
          writeCoeff_InRangeVec hr _ ⟨hprops.2.1.1, hprops.2.1.2⟩
        have hread_self : readIdx hv v1 j = w :=
          writeCoeff_read_self hwf htwf hhv htmcu w
        have hread_ne : ∀ i, i ≠ j → readIdx hv v1 i = readIdx hv v i := by
          intro i hne
          exact writeCoeff_read_ne hwf htwf hhv htmcu
            (fun hEq => hne (by rw [← (stateOfIdx_wf_idx hv3 i).2, hEq, htidx])) w
        obtain ⟨hwf', hsidx'⟩ := stepState_wf_idx hv3 htwf
        have hcongr : usableFrom hv v1 (j + 1) = usableFrom hv v (j + 1) :=
          usableFrom_congr hlen1 (j + 1) (fun k hk1 hk2 => hread_ne k (by omega))
        have hcap' : n ≤ usableFrom hv v1 (stateIdx hv (stepState hv t)) := by
          rw [hsidx', htidx, hcongr]
          omega
        obtain ⟨v', hrun, hlen', hwf'', hr'', hloc', hex'⟩ :=
          ih v1 (stepState hv t) r' bs rE hwf1 hr1 hwf' hrest hcap'
        have hfuel_eq : walkFuel hv v = walkFuel hv v1 := by
          unfold walkFuel
          rw [hlen1]
        refine ⟨v', ?_, by rw [hlen', hlen1], hwf'', hr'', ?_, ?_⟩
        · rw [injectLoop, hfa]
          dsimp only
          rw [h1]
          dsimp only
          rw [hfuel_eq]
          exact hrun
        · intro i hi
          rw [hloc' i (by rw [hsidx', htidx]; omega), hread_ne i (by omega)]
        · obtain ⟨sE, hexbits⟩ := hex'
          refine ⟨sE, ?_⟩
          rw [extractBits]
          have hv'j : readIdx hv v' j = w := by
            rw [hloc' j (by rw [hsidx', htidx]; omega), hread_self]
          have hfa2 := findAvailableCoeffExtract_spec hv3 v' (walkFuel hv v') s j hs
            hj1 (by rw [hlen', hlen1]; exact hj2) (by rw [hv'j]; exact hwusable)
            (fun k hk1 hk2 => by
              rw [hloc' k (by rw [hsidx', htidx]; omega), hread_ne k (by omega)]
              exact hj4 k hk1 hk2)
            (by unfold walkFuel
                rw [hlen', hlen1, show (hv + 2) * 63 = mcuSpan hv from rfl]
                omega)
          rw [hfa2]
          dsimp only
          rw [hexbits]
          dsimp only
          have hlsb : lsbOf w = b := by
            rw [lsbOf_eq_emod, hprops.2.2.1]
            interval_cases b
            · simp
            · simp
          rw [hv'j, hlsb]

theorem readLoop_error {e : VErr} :
    ∀ {n res} {r : BitReader}, BitReader.readLoop n res r = .error e →
    e = .indexErr := by
  intro n
  induction n with
  | zero => intro res r h; cases h
  | succ n ih =>
    intro res r h
    rw [BitReader.readLoop] at h
    unfold BitReader.readStep at h
    by_cases hflag : r.read_
    · rw [if_pos hflag] at h
      dsimp only at h
      cases h
    · rw [if_neg hflag] at h
      cases hget : r.data_.get? r.currByte_ with
      | none =>
        rw [hget] at h
        dsimp only at h
        cases h
        rfl
      | some b =>
        rw [hget] at h
        dsimp only at h
        exact ih h

theorem findAvailableCoeff_error {hv : ℕ} {v : List MinimumCodedUnit} {e : VErr} :
    ∀ {fuel s}, findAvailableCoeff hv v fuel s = .error e → e = .outOfRange := by
  intro fuel
  induction fuel with
  | zero =>
    intro s h
    rw [findAvailableCoeff] at h
    cases h
    rfl
  | succ f ih =>
    intro s h
    rw [findAvailableCoeff] at h
    unfold findCoeff at h
    by_cases hm : v.length ≤ s.currMCU
    · rw [if_pos hm] at h
      dsimp only at h
      cases h
      rfl
    · rw [if_neg hm] at h
      dsimp only at h
      by_cases hval : readCoeff v s = 0 ∨ readCoeff v s = 1
      · rw [if_pos hval] at h
        exact ih h
      · rw [if_neg hval] at h
        cases h

/-- The embedding loop can only raise walker or reader errors, never the
capacity error. -/
theorem injectLoop_no_capacity {hv fuel : ℕ} {w : List MinimumCodedUnit} :
    ∀ {n v s} {r : BitReader}, injectLoop hv fuel v s r n = .error (.capacity, w) →
    False := by
  intro n
  induction n with
  | zero => intro v s r h; cases h
  | succ n ih =>
    intro v s r h
    rw [injectLoop] at h
    cases hfa : findAvailableCoeff hv v fuel s with
    | error e =>
      rw [hfa] at h
      dsimp only at h
      cases h
      cases findAvailableCoeff_error hfa
    | ok p =>
      obtain ⟨tup, s'⟩ := p
      rw [hfa] at h
      dsimp only at h
      cases hread : BitReader.readNextBit r 1 with
      | error e =>
        rw [hread] at h
        dsimp only at h
        cases h
        exact absurd (readLoop_error hread) (by simp)
      | ok q =>
        obtain ⟨b, r'⟩ := q
        rw [hread] at h
        dsimp only at h
        exact ih h

/-- A successful `findAvailableCoeff` stops at a reachable state holding
a usable value. -/
theorem findAvailableCoeff_ok_shape {hv : ℕ} (hv3 : ValidHV hv)
    {v : List MinimumCodedUnit} :
    ∀ {fuel s tup s'}, WFState hv s →
    findAvailableCoeff hv v fuel s = .ok (tup, s') →
    ∃ t, WFState hv t ∧ t.currMCU < v.length ∧ tup = tupOfState v t ∧
      s' = stepState hv t ∧ usableCoeff (readCoeff v t) = true := by
  intro fuel
  induction fuel with
  | zero =>
    intro s tup s' hs h
    rw [findAvailableCoeff] at h
    cases h
  | succ f ih =>
    intro s tup s' hs h
    rw [findAvailableCoeff] at h
    unfold findCoeff at h
    by_cases hm : v.length ≤ s.currMCU
    · rw [if_pos hm] at h
      dsimp only at h
      cases h
    · rw [if_neg hm] at h
      dsimp only at h
      by_cases hval : readCoeff v s = 0 ∨ readCoeff v s = 1
      · rw [if_pos hval] at h
        exact ih (stepState_wf_idx hv3 hs).1 h
      · rw [if_neg hval] at h
        cases h
        push_neg at hval
        exact ⟨s, hs, by omega, rfl, rfl, by
          unfold usableCoeff
          exact decide_eq_true ⟨hval.1, hval.2⟩⟩

/-- Arithmetic closed form of the `injectFile` LSB rewrite on the faithful
`int8` range. -/
theorem injectNewVal_eq {c : ℤ} (h1 : -128 ≤ c) (h2 : c ≤ 127) (b : ℕ) :
    injectNewVal c b = 2 * ((c % 256) / 2) + (if b ≠ 0 then (1 : ℤ) else 0) +
      (if c < 0 then (-256 : ℤ) else 0) := by
  unfold injectNewVal
  dsimp only
  have hu0 : 0 ≤ c % 256 := Int.emod_nonneg c (by norm_num)
  have hu1 : c % 256 < 256 := Int.emod_lt_of_pos c (by norm_num)
  set u := (c % 256).toNat with hu
  have htn : ((u : ℤ)) = c % 256 := Int.toNat_of_nonneg hu0
  have hult : u < 256 := by omega
  have hcm : (0 ≤ c ∧ c % 256 = c) ∨ (c < 0 ∧ c % 256 = c + 256) := by
    rcases le_or_lt 0 c with h | h
    · exact Or.inl ⟨h, Int.emod_eq_of_lt h (by omega)⟩
    · exact Or.inr ⟨h, emod_of_neg_range (by omega) h⟩
  by_cases hb : b ≠ 0 <;>
    [simp only [if_pos hb, lor_one_eq u hult];
     simp only [if_neg hb, land_254_eq u hult]] <;>
    split_ifs <;>
    push_cast <;>
    rcases hcm with ⟨hs, hm⟩ | ⟨hs, hm⟩ <;>
    omega

/-- Rewriting the LSB twice is the same as rewriting it once with the
last bit. -/
theorem injectNewVal_comp {c : ℤ} (h1 : -128 ≤ c) (h2 : c ≤ 127) (b1 b2 : ℕ) :
    injectNewVal (injectNewVal c b1) b2 = injectNewVal c b2 := by
  have hprops := injectNewVal_props c b1 h1 h2
  have hr1 : -128 ≤ injectNewVal c b1 := hprops.2.1.1
  have hr2 : injectNewVal c b1 ≤ 127 := hprops.2.1.2
  have hkey : injectNewVal c b1 = 2 * ((c % 256) / 2) + (if b1 ≠ 0 then (1 : ℤ) else 0) +
      (if c < 0 then (-256 : ℤ) else 0) := injectNewVal_eq h1 h2 b1
  rw [injectNewVal_eq hr1 hr2 b2, injectNewVal_eq h1 h2 b2]
  have hu0 : 0 ≤ c % 256 := Int.emod_nonneg c (by norm_num)
  have hu1 : c % 256 < 256 := Int.emod_lt_of_pos c (by norm_num)
  have hcm : (0 ≤ c ∧ c % 256 = c) ∨ (c < 0 ∧ c % 256 = c + 256) := by
    rcases le_or_lt 0 c with h | h
    · exact Or.inl ⟨h, Int.emod_eq_of_lt h (by omega)⟩
    · exact Or.inr ⟨h, emod_of_neg_range (by omega) h⟩
  rw [hkey] at hr1 hr2 ⊢
  split_ifs at * <;>
    rcases hcm with ⟨hs, hm⟩ | ⟨hs, hm⟩ <;>
    omega

/-- Per-position effect of the embedding loop: every coefficient is
either untouched, or was usable and got its LSB rewritten. -/
theorem injectLoop_writes {hv : ℕ} (hv3 : ValidHV hv) (hhv : hv ≤ 4) {fuel : ℕ} :
    ∀ n v s (r : BitReader) v', WFVec v → InRangeVec v → WFState hv s →
    injectLoop hv fuel v s r n = .ok v' →
    ∀ i, readIdx hv v' i = readIdx hv v i ∨
      (usableCoeff (readIdx hv v i) = true ∧
       ∃ b, b ≤ 1 ∧ readIdx hv v' i = injectNewVal (readIdx hv v i) b) := by
  intro n
  induction n with
  | zero =>
    intro v s r v' hwf hr hs h i
    cases h
    exact Or.inl rfl
  | succ n ih =>
    intro v s r v' hwf hr hs h i
    rw [injectLoop] at h
    cases hfa : findAvailableCoeff hv v fuel s with
    | error e => rw [hfa] at h; cases h
    | ok p =>
      obtain ⟨tup, s1⟩ := p
      rw [hfa] at h
      dsimp only at h
      cases hread : BitReader.readNextBit r 1 with
      | error e => rw [hread] at h; cases h
      | ok q =>
        obtain ⟨b, r'⟩ := q
        rw [hread] at h
        dsimp only at h
        obtain ⟨t, htwf, htmcu, htup, hs1, htuse⟩ := findAvailableCoeff_ok_shape hv3 hs hfa
        subst htup hs1
        have hcrange := readCoeff_range hr t
        have hprops := injectNewVal_props (readCoeff v t) b hcrange.1 hcrange.2
        have hble : b ≤ 1 := readNextBit_one_le hread
        set x := injectNewVal (tupOfState v t).val b with hx
        have hxval : x = injectNewVal (readCoeff v t) b := rfl
        set v1 := writeCoeff v (tupOfState v t) x with hv1
        have hwf1 : WFVec v1 := writeCoeff_WFVec hwf _ _
        have hr1 : InRangeVec v1 := writeCoeff_InRangeVec hr _
          (hxval ▸ ⟨hprops.2.1.1, hprops.2.1.2⟩)
        have hres := ih v1 (stepState hv t) r' v' hwf1 hr1
          (stepState_wf_idx hv3 htwf).1 h i
        by_cases hit : stateOfIdx hv i = t
        · have hvi : readIdx hv v i = readCoeff v t := by
            rw [readIdx, hit]
          have hv1i : readIdx hv v1 i = x := by
            rw [readIdx, hit]
            exact writeCoeff_read_self hwf htwf hhv htmcu x
          rcases hres with heq | ⟨huse1, b2, hb2, hmod⟩
          · refine Or.inr ⟨hvi ▸ htuse, b, hble, ?_⟩
            rw [heq, hv1i, hxval, hvi]
          · refine Or.inr ⟨hvi ▸ htuse, b2, hb2, ?_⟩
            rw [hmod, hv1i, hxval, hvi]
            exact injectNewVal_comp hcrange.1 hcrange.2 b b2
        · have hv1i : readIdx hv v1 i = readIdx hv v i := by
            rw [readIdx, readIdx]
            exact writeCoeff_read_ne hwf htwf hhv htmcu hit x
          rw [hv1i] at hres
          exact hres

/-- C4: `injectFile` raises the fatal capacity error exactly when eight
times the framed payload length exceeds the measured capacity counter,
and the error then carries the MCU vector unmodified. -/
theorem claim_C4_capacity_check (hv : ℕ) (v v' : List MinimumCodedUnit)
    (cap : ℕ) (fb : List ℕ) :
    injectFile hv v cap fb = .error (.capacity, v') ↔
      cap < fb.length * 8 ∧ v' = v := by
  constructor
  · intro h
    unfold injectFile at h
    by_cases hc : cap < fb.length * 8
    · rw [if_pos hc] at h
      cases h
      exact ⟨hc, rfl⟩
    · rw [if_neg hc] at h
      exact (injectLoop_no_capacity h).elim
  · rintro ⟨hc, rfl⟩
    unfold injectFile
    rw [if_pos hc]

/-- C2 (amended): a successful embedding never modifies a coefficient
whose original value was 0 or +1 (but it may modify −1), and every
modified coefficient keeps its sign and moves its magnitude by at most 1.
Requires the decoded coefficients to lie in the `int8`-faithful range. -/
theorem claim_C2_embedding_invariant (hv : ℕ) (v v' : List MinimumCodedUnit)
    (cap : ℕ) (fb : List ℕ)
    (hv3 : ValidHV hv) (hwf : WFVec v) (hr : InRangeVec v)
    (hok : injectFile hv v cap fb = .ok v') (i : ℕ) :
    (readIdx hv v i = 0 ∨ readIdx hv v i = 1 → readIdx hv v' i = readIdx hv v i) ∧
    (readIdx hv v' i ≠ readIdx hv v i →
      ((readIdx hv v i < 0 ↔ readIdx hv v' i < 0) ∧
       (readIdx hv v' i).natAbs ≤ (readIdx hv v i).natAbs + 1 ∧
       (readIdx hv v i).natAbs ≤ (readIdx hv v' i).natAbs + 1)) := by
  have hhv : hv ≤ 4 := by rcases hv3 with rfl | rfl | rfl <;> omega
  have hv0 : 0 < hv := by rcases hv3 with rfl | rfl | rfl <;> omega
  unfold injectFile at hok
  by_cases hc : cap < fb.length * 8
  · rw [if_pos hc] at hok
    cases hok
  · rw [if_neg hc] at hok
    have hinv := injectLoop_writes hv3 hhv (fb.length * 8) v WalkState.init
      (BitReader.init fb) v' hwf hr (WFState.init_wf hv0) hok i
    have hcr := readCoeff_range hr (stateOfIdx hv i)
    constructor
    · intro h01
      rcases hinv with heq | ⟨huse, _, _, _⟩
      · exact heq
      · unfold usableCoeff at huse
        have := of_decide_eq_true huse
        rcases h01 with h | h
        · exact absurd h this.1
        · exact absurd h this.2
    · intro hne
      rcases hinv with heq | ⟨huse, b, hb, hmod⟩
      · exact absurd heq hne
      · unfold usableCoeff at huse
        have huse' := of_decide_eq_true huse
        have hprops := injectNewVal_props (readIdx hv v i) b hcr.1 hcr.2
        rw [hmod]
        refine ⟨⟨fun hneg => hprops.2.2.2.2.1 hneg, fun hneg' => ?_⟩,
          hprops.2.2.2.2.2.1.2, hprops.2.2.2.2.2.1.1⟩
        by_contra hpos
        push_neg at hpos
        have h0 : 0 < readIdx hv v i := by
          rcases lt_or_eq_of_le hpos with h | h
          · exact h
          · exact absurd h.symm huse'.1
        exact absurd (hprops.2.2.2.1 huse'.2 h0) (by omega)

theorem claim_C2_witness :
    ValidHV 1 ∧ WFVec vC2 ∧ InRangeVec vC2 ∧
    ((readIdx 1 vC2 0 = 0 ∨ readIdx 1 vC2 0 = 1 →
      readIdx 1 vC2 0 = readIdx 1 vC2 0) ∧
     (readIdx 1 vC2 0 ≠ readIdx 1 vC2 0 →
      ((readIdx 1 vC2 0 < 0 ↔ readIdx 1 vC2 0 < 0) ∧
       (readIdx 1 vC2 0).natAbs ≤ (readIdx 1 vC2 0).natAbs + 1 ∧
       (readIdx 1 vC2 0).natAbs ≤ (readIdx 1 vC2 0).natAbs + 1))) :=
  ⟨by unfold ValidHV; decide, by unfold WFVec; decide, by unfold InRangeVec; decide,
   claim_C2_embedding_invariant 1 vC2 vC2 8 [0] (by unfold ValidHV; decide)
     (by unfold WFVec; decide) (by unfold InRangeVec; decide) (by rfl) 0⟩

/-- C2 counterexample: embedding a zero bit into a coefficient whose
original value is −1 rewrites it to −2 — the embedder does modify
coefficients whose original value was −1, contrary to the claim. -/
theorem claim_C2_counterexample :
    injectFile 1 vC2x 8 [0] = .ok vC2x' ∧
    readIdx 1 vC2x 0 = -1 ∧ readIdx 1 vC2x' 0 = -2 :=
  ⟨by rfl, by decide, by decide⟩

/-- Single-bit reads from an arbitrary bit offset into a short buffer
(no `uint8` cursor wrap): the bit stream is `bitAtWrapped` and the cursor
advances linearly. -/
theorem readBitsFrom_mid (d : List ℕ) (h2 : d.length < 256) :
    ∀ n k, k + n ≤ 8 * d.length →
    ∃ flag, readBitsFrom ⟨d, k / 8, k % 8, false⟩ n =
      .ok ((List.range' k n).map (bitAtWrapped d), ⟨d, (k + n) / 8, (k + n) % 8, flag⟩) := by
  intro n
  induction n with
  | zero =>
    intro k hk
    exact ⟨false, rfl⟩
  | succ n ih =>
    intro k hk
    have hklt : k < 8 * d.length := by omega
    have hbyte : k / 8 < d.length := by omega
    rw [readBitsFrom, readNextBit_one_ok _ rfl (by simpa using hbyte)]
    dsimp only
    have hb1 : (k % 8 + 1) % 8 = (k + 1) % 8 := by omega
    have hb2 : (if (k % 8 + 1) % 8 = 0 then (k / 8 + 1) % 256 else k / 8) = (k + 1) / 8 := by
      split <;> omega
    rw [hb2, hb1]
    have hflag : decide (d.length ≤ (k + 1) / 8) = decide (8 * d.length ≤ k + 1) := by
      rcases Nat.lt_or_ge (k + 1) (8 * d.length) with h | h
      · rw [decide_eq_false (by omega), decide_eq_false (by omega)]
      · rw [decide_eq_true (by omega), decide_eq_true (by omega)]
    rw [hflag]
    cases n with
    | zero =>
      refine ⟨decide (8 * d.length ≤ k + 1), ?_⟩
      rw [readBitsFrom]
      dsimp only
      have hbit : bitAtWrapped d k = (d.getD (k / 8) 0 >>> (7 - k % 8)) &&& 1 := by
        unfold bitAtWrapped
        rw [Nat.mod_eq_of_lt (by omega)]
      rw [List.range'_one, List.map_cons, List.map_nil, hbit]
    | succ n =>
      have hle : k + 1 + (n + 1) ≤ 8 * d.length := by omega
      have hflag2 : decide (8 * d.length ≤ k + 1) = false :=
        decide_eq_false (by omega)
      rw [hflag2]
      obtain ⟨flag, hrec⟩ := ih (k + 1) hle
      rw [hrec]
      dsimp only
      refine ⟨flag, ?_⟩
      have hbit : bitAtWrapped d k = (d.getD (k / 8) 0 >>> (7 - k % 8)) &&& 1 := by
        unfold bitAtWrapped
        rw [Nat.mod_eq_of_lt (by omega)]
      rw [show k + (n + 1 + 1) = k + 1 + (n + 1) from by omega]
      conv_rhs => rw [List.range'_succ, List.map_cons]
      rw [hbit]

theorem bitsOfBytes_append (l1 l2 : List ℕ) :
    bitsOfBytes (l1 ++ l2) = bitsOfBytes l1 ++ bitsOfBytes l2 := by
  induction l1 with
  | nil => rfl
  | cons b bs ih =>
    rw [List.cons_append, bitsOfBytes, bitsOfBytes, ih, List.append_assoc]

theorem bitsOfBytes_length (l : List ℕ) : (bitsOfBytes l).length = 8 * l.length := by
  induction l with
  | nil => rfl
  | cons b bs ih =>
    rw [bitsOfBytes, List.length_append, ih]
    simp [byteBits]
    omega

theorem map_bitAt_byte (d : List ℕ) (t : ℕ) (ht : t < 256) :
    (List.range' (8 * t) 8).map (bitAtWrapped d) = byteBits (d.getD t 0) := by
  have hr : List.range' (8 * t) 8 =
      [8*t, 8*t+1, 8*t+2, 8*t+3, 8*t+4, 8*t+5, 8*t+6, 8*t+7] := by
    norm_num [List.range'_succ, List.range'_one]
  have hrange : List.range 8 = [0, 1, 2, 3, 4, 5, 6, 7] := rfl
  rw [hr, byteBits, hrange]
  simp only [List.map_cons, List.map_nil, bitAtWrapped]
  rw [show 8 * t / 8 % 256 = t from by omega,
    show (8 * t + 1) / 8 % 256 = t from by omega,
    show (8 * t + 2) / 8 % 256 = t from by omega,
    show (8 * t + 3) / 8 % 256 = t from by omega,
    show (8 * t + 4) / 8 % 256 = t from by omega,
    show (8 * t + 5) / 8 % 256 = t from by omega,
    show (8 * t + 6) / 8 % 256 = t from by omega,
    show (8 * t + 7) / 8 % 256 = t from by omega,
    show 8 * t % 8 = 0 from by omega,
    show (8 * t + 1) % 8 = 1 from by omega,
    show (8 * t + 2) % 8 = 2 from by omega,
    show (8 * t + 3) % 8 = 3 from by omega,
    show (8 * t + 4) % 8 = 4 from by omega,
    show (8 * t + 5) % 8 = 5 from by omega,
    show (8 * t + 6) % 8 = 6 from by omega,
    show (8 * t + 7) % 8 = 7 from by omega]

/-- Reading all bits of a short buffer, eight at a time. -/
theorem map_bitAt_eq_bitsOfBytes (d : List ℕ) (hlen : d.length ≤ 256) :
    ∀ m t, t + m ≤ d.length →
    (List.range' (8 * t) (8 * m)).map (bitAtWrapped d) =
      bitsOfBytes ((d.drop t).take m) := by
  intro m
  induction m with
  | zero =>
    intro t ht
    simp [bitsOfBytes]
  | succ m ih =>
    intro t ht
    have hsplit : List.range' (8 * t) (8 * (m + 1)) =
        List.range' (8 * t) 8 ++ List.range' (8 * t + 8) (8 * m) := by
      have h := List.range'_append (8 * t) 8 (8 * m) 1
      rw [show 8 * t + 1 * 8 = 8 * t + 8 from by omega] at h
      rw [show 8 * (m + 1) = 8 * m + 8 from by omega, ← h]
    rw [hsplit, List.map_append, map_bitAt_byte d t (by omega),
      show 8 * t + 8 = 8 * (t + 1) from by omega, ih (t + 1) (by omega)]
    have hdrop : d.drop t = d.getD t 0 :: d.drop (t + 1) := by
      rw [List.getD_eq_getElem?_getD, List.getElem?_eq_getElem (by omega), Option.getD_some]
      exact List.drop_eq_getElem_cons (by omega)
    rw [hdrop, List.take_succ_cons, bitsOfBytes]

set_option maxRecDepth 8000 in
theorem byteFold_eq : ∀ x : ℕ, x < 256 →
    ((((((((((((((((0 <<< 1 ||| x >>> 7 &&& 1) % 4294967296) <<< 1 ||| x >>> 6 &&& 1) % 4294967296) <<< 1 ||| x >>> 5 &&& 1) % 4294967296) <<< 1 ||| x >>> 4 &&& 1) % 4294967296) <<< 1 ||| x >>> 3 &&& 1) % 4294967296) <<< 1 ||| x >>> 2 &&& 1) % 4294967296) <<< 1 ||| x >>> 1 &&& 1) % 4294967296) <<< 1 ||| x >>> 0 &&& 1) % 4294967296) = x := by decide

set_option maxRecDepth 2000 in
theorem byteFoldOr_eq : ∀ x : ℕ, x < 256 →
    (byteBits x).foldl (fun a b => (a <<< 1) ||| b) 0 = x := by decide

theorem byteBits_explicit (x : ℕ) :
    byteBits x = [x >>> 7 &&& 1, x >>> 6 &&& 1, x >>> 5 &&& 1, x >>> 4 &&& 1,
      x >>> 3 &&& 1, x >>> 2 &&& 1, x >>> 1 &&& 1, x >>> 0 &&& 1] := by
  norm_num [byteBits, show List.range 8 = [0, 1, 2, 3, 4, 5, 6, 7] from rfl]

/-- Packing one byte worth of bits appends exactly that byte. -/
theorem packBits_byte (x : ℕ) (hx : x < 256) (t : ℕ) (acc rest : List ℕ) :
    packBitsFrom (8 * t + 1) 0 acc (byteBits x ++ rest) =
      packBitsFrom (8 * t + 9) 0 (acc ++ [x]) rest := by
  rw [byteBits_explicit, List.cons_append, List.cons_append, List.cons_append,
    List.cons_append, List.cons_append, List.cons_append, List.cons_append,
    List.cons_append, List.nil_append]
  rw [packBitsFrom]
  rw [if_neg (show ¬(8 * t + 1) % 8 = 0 from by omega)]
  rw [packBitsFrom]
  rw [if_neg (show ¬(8 * t + 1 + 1) % 8 = 0 from by omega)]
  rw [packBitsFrom]
  rw [if_neg (show ¬(8 * t + 1 + 1 + 1) % 8 = 0 from by omega)]
  rw [packBitsFrom]
  rw [if_neg (show ¬(8 * t + 1 + 1 + 1 + 1) % 8 = 0 from by omega)]
  rw [packBitsFrom]
  rw [if_neg (show ¬(8 * t + 1 + 1 + 1 + 1 + 1) % 8 = 0 from by omega)]
  rw [packBitsFrom]
  rw [if_neg (show ¬(8 * t + 1 + 1 + 1 + 1 + 1 + 1) % 8 = 0 from by omega)]
  rw [packBitsFrom]
  rw [if_neg (show ¬(8 * t + 1 + 1 + 1 + 1 + 1 + 1 + 1) % 8 = 0 from by omega)]
  rw [packBitsFrom]
  rw [if_pos (show (8 * t + 1 + 1 + 1 + 1 + 1 + 1 + 1 + 1) % 8 = 0 from by omega)]
  rw [byteFold_eq x hx,
    show 8 * t + 1 + 1 + 1 + 1 + 1 + 1 + 1 + 1 + 1 = 8 * t + 9 from by omega]

/-- Packing the MSB-first bit expansion of a byte string recovers the
bytes. -/
theorem packBitsFrom_bytes :
    ∀ bytes : List ℕ, (∀ x ∈ bytes, x < 256) → ∀ t acc,
    packBitsFrom (8 * t + 1) 0 acc (bitsOfBytes bytes) = acc ++ bytes := by
  intro bytes
  induction bytes with
  | nil =>
    intro _ t acc
    rw [bitsOfBytes, packBitsFrom, List.append_nil]
  | cons b bs ih =>
    intro hb t acc
    rw [bitsOfBytes, packBits_byte b (hb b (List.mem_cons_self b bs)) t acc,
      show 8 * t + 9 = 8 * (t + 1) + 1 from by omega,
      ih (fun x hx => hb x (List.mem_cons_of_mem b hx)) (t + 1) (acc ++ [b])]
    simp

/-- The size accumulator over the four leading frame bytes `[0,0,0,s]`
recovers `s` for `s < 256`. -/
theorem sizeFold_eq (s : ℕ) (hs : s < 256) :
    (bitsOfBytes [0, 0, 0, s]).foldl (fun a b => (a <<< 1) ||| b) 0 = s := by
  have h0 : (byteBits 0).foldl (fun a b => (a <<< 1) ||| b) 0 = 0 :=
    byteFoldOr_eq 0 (by omega)
  rw [bitsOfBytes, bitsOfBytes, bitsOfBytes, bitsOfBytes, bitsOfBytes,
    List.append_nil, List.foldl_append, List.foldl_append, List.foldl_append,
    h0, h0, h0]
  exact byteFoldOr_eq s hs

/-- `prepFileToInject` for a frame below 256 bytes: three zero bytes, the
payload size, the payload, the separator and the basename. -/
theorem prepFile_eq (file name : List ℕ)
    (hds : file.length + 1 + name.length < 256) :
    prepFileToInject file name =
      [0, 0, 0, file.length + 1 + name.length] ++ (file ++ 47 :: name) := by
  unfold prepFileToInject
  rw [show List.range 4 = [0, 1, 2, 3] from rfl]
  simp only [List.foldl_cons, List.foldl_nil]
  have hfd : ((file ++ [47]) ++ name).length = file.length + 1 + name.length := by
    simp only [List.length_append, List.length_cons, List.length_nil]
  rw [hfd]
  set ds := file.length + 1 + name.length with hdsdef
  have hand : ∀ y : ℕ, y &&& 255 = y % 256 := by
    intro y
    rw [show (255 : ℕ) = 2 ^ 8 - 1 from rfl, Nat.and_pow_two_sub_one_eq_mod]
  have e0 : ds >>> (8 * 0) &&& 255 = ds := by
    rw [Nat.shiftRight_eq_div_pow, hand]
    omega
  have e1 : ds >>> (8 * 1) &&& 255 = 0 := by
    rw [Nat.shiftRight_eq_div_pow, hand]
    omega
  have e2 : ds >>> (8 * 2) &&& 255 = 0 := by
    rw [Nat.shiftRight_eq_div_pow, hand]
    have : ds / 2 ^ 16 = 0 := by
      apply Nat.div_eq_of_lt
      omega
    omega
  have e3 : ds >>> (8 * 3) &&& 255 = 0 := by
    rw [Nat.shiftRight_eq_div_pow, hand]
    have : ds / 2 ^ 24 = 0 := by
      apply Nat.div_eq_of_lt
      omega
    omega
  rw [e0, e1, e2, e3]
  simp

/-- Splitting the extracted buffer at the appended separator. -/
theorem removeName_append (file name : List ℕ) (hfile : file ≠ [])
    (hname : (47 : ℕ) ∉ name) :
    removeNameFromFileData (file ++ 47 :: name) = .ok (file, name) := by
  unfold removeNameFromFileData lastSlashIdx
  have hrev : (file ++ 47 :: name).reverse = name.reverse ++ 47 :: file.reverse := by
    rw [List.reverse_append]
    simp
  rw [hrev, List.findIdx?_append]
  have hnone : name.reverse.findIdx? (· = 47) = none := by
    rw [List.findIdx?_eq_none_iff]
    intro x hx
    rw [List.mem_reverse] at hx
    simp only [decide_eq_false_iff_not]
    intro hx47
    exact hname (hx47 ▸ hx)
  rw [hnone, Option.none_or, List.findIdx?_cons,
    if_pos (show decide ((47 : ℕ) = 47) = true from rfl), Option.map_some']
  dsimp only
  have hlen : (file ++ 47 :: name).length = file.length + 1 + name.length := by
    simp only [List.length_append, List.length_cons]
    omega
  rw [hlen]
  have hfl : 0 < file.length := List.length_pos.mpr hfile
  have hidx : file.length + 1 + name.length - 1 - (0 + name.reverse.length) =
      file.length := by
    rw [List.length_reverse]
    omega
  rw [hidx, if_neg (by omega)]
  have htake : (file ++ 47 :: name).take file.length = file := List.take_left file _
  have hdrop : (file ++ 47 :: name).drop (file.length + 1) = name := by
    rw [show file ++ 47 :: name = (file ++ [47]) ++ name from by simp,
      show file.length + 1 = (file ++ [47]).length from by simp]
    exact List.drop_left _ _
  rw [htake, hdrop]

theorem stateIdx_init (hv : ℕ) : stateIdx hv WalkState.init = 0 := by
  simp [stateIdx, WalkState.init]

/-- C1 (amended): embedding a nonempty file with a slash-free basename
whose frame stays under 256 bytes and fits the usable-coefficient
capacity of an `int8`-faithful MCU vector, then extracting, recovers the
exact payload bytes and the exact basename. -/
theorem claim_C1_roundtrip (hv : ℕ) (v : List MinimumCodedUnit) (cap : ℕ)
    (file name : List ℕ)
    (hv3 : ValidHV hv) (hwf : WFVec v) (hr : InRangeVec v)
    (hfile : file ≠ []) (hname : (47 : ℕ) ∉ name)
    (hfb : ∀ b ∈ file, b < 256) (hnb : ∀ b ∈ name, b < 256)
    (hsmall : file.length + 1 + name.length < 252)
    (hcap : (prepFileToInject file name).length * 8 ≤ cap)
    (hcap2 : cap ≤ usableFrom hv v 0) :
    ∃ v', injectFile hv v cap (prepFileToInject file name) = .ok v' ∧
      extractFromJPG hv v' = .ok (file ++ 47 :: name) ∧
      removeNameFromFileData (file ++ 47 :: name) = .ok (file, name) := by
  have hhv : hv ≤ 4 := by rcases hv3 with rfl | rfl | rfl <;> omega
  have hv0 : 0 < hv := by rcases hv3 with rfl | rfl | rfl <;> omega
  set ds := file.length + 1 + name.length with hds
  have hframe := prepFile_eq file name (by omega)
  set frame := prepFileToInject file name with hframedef
  have hflen : frame.length = ds + 4 := by
    rw [hframe]
    simp only [List.length_append, List.length_cons, List.length_nil]
    omega
  obtain ⟨flag, hread⟩ := readBitsFrom_mid frame (by omega) (frame.length * 8) 0 (by omega)
  have hinit : BitReader.init frame = ⟨frame, 0 / 8, 0 % 8, false⟩ := rfl
  have hbitsval : (List.range' 0 (frame.length * 8)).map (bitAtWrapped frame) =
      bitsOfBytes frame := by
    have h := map_bitAt_eq_bitsOfBytes frame (by omega) frame.length 0 (by omega)
    rw [show 8 * 0 = 0 from rfl, List.drop_zero, List.take_length] at h
    rw [show frame.length * 8 = 8 * frame.length from by omega]
    exact h
  rw [hbitsval] at hread
  obtain ⟨v', hrun, hlen', hwf', hr', hloc, sE, hex⟩ :=
    injectLoop_sync hv3 hhv (frame.length * 8) v WalkState.init
      (BitReader.init frame) (bitsOfBytes frame) _ hwf hr
      (WFState.init_wf hv0) (by rw [hinit]; exact hread)
      (by rw [stateIdx_init]; omega)
  refine ⟨v', ?_, ?_, removeName_append file name hfile hname⟩
  · unfold injectFile
    rw [if_neg (by omega)]
    exact hrun
  · have hbnd : ∀ x ∈ file ++ 47 :: name, x < 256 := by
      intro x hx
      rcases List.mem_append.mp hx with hx | hx
      · exact hfb x hx
      · rcases List.mem_cons.mp hx with rfl | hx
        · omega
        · exact hnb x hx
    have hsplit_n : frame.length * 8 = 32 + ds * 8 := by omega
    rw [hsplit_n] at hex
    obtain ⟨s1, hex1, hex2⟩ :=
      extractBits_split 32 (ds * 8) WalkState.init (bitsOfBytes frame) sE hex
    have hbsplit : bitsOfBytes frame =
        bitsOfBytes [0, 0, 0, ds] ++ bitsOfBytes (file ++ 47 :: name) := by
      rw [hframe, ← bitsOfBytes_append]
    have hlen32 : (bitsOfBytes [0, 0, 0, ds]).length = 32 := by
      rw [bitsOfBytes_length]
      rfl
    have htake : (bitsOfBytes frame).take 32 = bitsOfBytes [0, 0, 0, ds] := by
      rw [hbsplit, ← hlen32, List.take_left]
    have hdrop : (bitsOfBytes frame).drop 32 = bitsOfBytes (file ++ 47 :: name) := by
      rw [hbsplit, ← hlen32, List.drop_left]
    have hpack : packBitsFrom 1 0 [] (bitsOfBytes (file ++ 47 :: name)) =
        file ++ 47 :: name := by
      have h := packBitsFrom_bytes (file ++ 47 :: name) hbnd 0 []
      rw [show 8 * 0 + 1 = 1 from rfl, List.nil_append] at h
      exact h
    unfold extractFromJPG
    rw [extractSizeLoop_eq, hex1]
    dsimp only
    rw [htake, sizeFold_eq ds (by omega)]
    rw [extractDataLoop_eq, hex2]
    dsimp only
    rw [hdrop, hpack]

set_option maxRecDepth 20000 in
/-- C1 counterexample: embedding the *empty* file (framed payload 48
bits, well within capacity) succeeds, but extraction ends with
`removeNameFromFileData` raising: the separator is the first extracted
byte, the scan leaves `idx = 0`, and the original payload/basename are
not recovered. -/
theorem claim_C1_counterexample :
    (match injectFile 1 vC1 48 (prepFileToInject [] [110]) with
     | .ok v' => (extractFromJPG 1 v').bind removeNameFromFileData
     | .error e => .error e.1) = .error .noSeparator := by
  rfl

set_option maxRecDepth 20000 in
theorem claim_C1_witness :
    ([97] : List ℕ) ≠ [] ∧ (47 : ℕ) ∉ ([110] : List ℕ) ∧
    (prepFileToInject [97] [110]).length * 8 ≤ 56 ∧
    56 ≤ usableFrom 1 vC1W 0 ∧
    (∃ v', injectFile 1 vC1W 56 (prepFileToInject [97] [110]) = .ok v' ∧
      extractFromJPG 1 v' = .ok ([97] ++ 47 :: [110]) ∧
      removeNameFromFileData ([97] ++ 47 :: [110]) = .ok ([97], [110])) :=
  ⟨by decide, by decide, by decide, by decide,
   claim_C1_roundtrip 1 vC1W 56 [97] [110] (by unfold ValidHV; decide)
     (by unfold WFVec; decide) (by unfold InRangeVec; decide) (by decide)
     (by decide) (by decide) (by decide) (by decide) (by decide) (by decide)⟩

end Vault
